import Mathlib

/-!
Verification of the dymetabonet curation/extraction engine.

This file gives a shallow embedding, in Lean 4, of the parts of the
dymetabonet repository (src/application) that the specification's claims
are about, and proves or refutes each claim against that embedding.

Modelling conventions:
* a Python `str` is embedded as `List Char` (`PyStr`); `s.split(sep)`,
  `old in s`, `s.replace(old, new)` and `re.sub` on the concrete patterns
  used by the source are embedded as executable functions below, faithful
  to CPython semantics for the non-empty separators the source uses;
* a Python `dict` is embedded as an association list with CPython update
  semantics (assignment to an existing key replaces the value in place,
  assignment to a fresh key appends; `del` removes the key);
* `float(s)` is embedded as `pyFloat : PyStr → Option ℚ`, covering the
  decimal literals (optional sign, digits, optional fractional part) that
  reaction equations contain; a string outside this grammar yields `none`,
  matching the `ValueError` that `float` raises on such inputs;
* Python exceptions are embedded with `Except PyErr`; an uncaught
  exception propagates, which the `Except` monad's bind models exactly;
* the object-identity (aliasing/mutation) behaviour of `copy.deepcopy`
  and in-place updates, needed by the frame claim, is embedded with an
  explicit address-indexed store (`Heap`) further below.
-/

deriving instance DecidableEq for Except

namespace Dymetabonet

/-- Python strings, embedded as lists of characters. -/
abbrev PyStr := List Char

/-- Python exception classes that the embedded code can raise. -/
inductive PyErr where
  | valueError
  | indexError
  | typeError
  | unboundLocal
deriving DecidableEq, Repr

/-- Leftmost occurrence of `sep` in `s`: `some (before, after)` splits `s`
around the first occurrence, `none` when `sep` does not occur (an empty
`sep` is treated as never occurring; the source never splits on it). -/
def splitFirst (sep : PyStr) : PyStr → Option (PyStr × PyStr)
  | [] => none
  | c :: t =>
    if !sep.isEmpty && sep.isPrefixOf (c :: t) then
      some ([], (c :: t).drop sep.length)
    else
      match splitFirst sep t with
      | some (a, b) => some (c :: a, b)
      | none => none

/-- Python's substring containment test `needle in hay`. -/
def pyIn (needle hay : PyStr) : Bool :=
  needle.isEmpty || (splitFirst needle hay).isSome

/-- Fuel-indexed worker for `pySplit`; with fuel at least the string's
length it computes Python's `s.split(sep)` on leftmost non-overlapping
occurrences. -/
def pySplitF (sep : PyStr) : Nat → PyStr → List PyStr
  | 0, s => [s]
  | fuel + 1, s =>
    match splitFirst sep s with
    | none => [s]
    | some (a, b) => a :: pySplitF sep fuel b

/-- Python's `s.split(sep)` for a non-empty separator. -/
def pySplit (sep s : PyStr) : List PyStr :=
  pySplitF sep s.length s

/-- Python's `s.replace(old, new)` for a non-empty `old`: replace every
leftmost non-overlapping occurrence (equal to `new.join(s.split(old))`). -/
def pyReplace (old new s : PyStr) : PyStr :=
  List.intercalate new (pySplit old s)

/-- Python's `sequence[index]`, raising `IndexError` when out of range
(the source never indexes with negative literals). -/
def pyIndex : List α → Nat → Except PyErr α
  | [], _ => .error .indexError
  | a :: _, 0 => .ok a
  | _ :: t, n + 1 => pyIndex t n

/-- Numeric value of a decimal digit, `none` for other characters. -/
def digitVal (c : Char) : Option Nat :=
  if '0' ≤ c ∧ c ≤ '9' then some (c.toNat - '0'.toNat) else none

/-- Value of a digit string read in base ten (0 for the empty string). -/
def digitsVal : PyStr → Nat
  | [] => 0
  | c :: t => ((digitVal c).getD 0) * 10 ^ t.length + digitsVal t

/-- Whether a character is a decimal digit. -/
def isDigitChar (c : Char) : Bool := decide ('0' ≤ c ∧ c ≤ '9')

/-- Python's `float(s)` on an unsigned decimal literal: digits with an
optional fractional part (at least one digit overall); other strings are
`none`.  Exponent and special forms never occur in the source's data and
are outside this embedding's scope. -/
def pyFloatUnsigned (s : PyStr) : Option ℚ :=
  let intPart := s.takeWhile isDigitChar
  let rest := s.dropWhile isDigitChar
  match rest with
  | [] => if intPart.isEmpty then none else some (digitsVal intPart)
  | '.' :: frac =>
    if frac.all isDigitChar && !(intPart.isEmpty && frac.isEmpty) then
      some ((digitsVal intPart : ℚ) + (digitsVal frac : ℚ) / (10 ^ frac.length : ℚ))
    else none
  | _ => none

/-- Python's `float(s)`: optional sign followed by an unsigned literal. -/
def pyFloat : PyStr → Option ℚ
  | '+' :: t => pyFloatUnsigned t
  | '-' :: t => (pyFloatUnsigned t).map Neg.neg
  | t => pyFloatUnsigned t

/-- `float(s)` as the expression the source writes: the value on success,
`ValueError` on failure. -/
def pyFloatE (s : PyStr) : Except PyErr ℚ :=
  match pyFloat s with
  | some q => .ok q
  | none => .error .valueError

/-- Python `dict` with string-like keys, as an association list that keeps
CPython's update semantics. -/
abbrev Dict (κ : Type) (α : Type) := List (κ × α)

/-- `d[k]` as an optional lookup. -/
def dictGet? [DecidableEq κ] : Dict κ α → κ → Option α
  | [], _ => none
  | (a, b) :: t, k => if a = k then some b else dictGet? t k

/-- `d[k] = v`: replace in place when the key exists, append otherwise. -/
def dictSet [DecidableEq κ] : Dict κ α → κ → α → Dict κ α
  | [], k, v => [(k, v)]
  | (a, b) :: t, k, v => if a = k then (a, v) :: t else (a, b) :: dictSet t k v

/-- `del d[k]`. -/
def dictDel [DecidableEq κ] : Dict κ α → κ → Dict κ α
  | [], _ => []
  | (a, b) :: t, k => if a = k then dictDel t k else (a, b) :: dictDel t k

/-- Python's `k in d` membership test on dictionaries. -/
def dictContains [DecidableEq κ] (d : Dict κ α) (k : κ) : Bool :=
  (dictGet? d k).isSome

/-- The keys of a dictionary, in order. -/
def dictKeys (d : Dict κ α) : List κ := d.map Prod.fst

/-- `utility.find`: first element satisfying the condition, else `None`. -/
def find (condition : α → Bool) : List α → Option α
  | [] => none
  | element :: rest => if condition element then some element else find condition rest

/-!
Embedding of `src/application/extraction.py`: record schemas of the
relational export tables (the field lists passed to
`utility.read_file_table` in `read_source`) and the extraction functions.
-/

/-- A row of the genes-by-reaction table. -/
structure GeneRow where
  reaction : PyStr
  genes : PyStr
  low_bound : PyStr
  up_bound : PyStr
  direction : PyStr
deriving DecidableEq, Repr

/-- A row of the compartments table. -/
structure CompartmentRow where
  identifier : PyStr
  name : PyStr
  source : PyStr
deriving DecidableEq, Repr

/-- A row of the metabolites table. -/
structure MetaboliteRow where
  identifier : PyStr
  name : PyStr
  source : PyStr
  formula : PyStr
  mass : PyStr
  charge : PyStr
  reference : PyStr
deriving DecidableEq, Repr

/-- A row of the reactions table. -/
structure ReactionRow where
  identifier : PyStr
  equation : PyStr
  recon2m2 : PyStr
  metanetx : PyStr
  enzyme_commission : PyStr
  process : PyStr
  reference : PyStr
deriving DecidableEq, Repr

/-- The record built for a compartment by `extract_compartments`. -/
structure Compartment where
  identifier : PyStr
  name : PyStr
deriving DecidableEq, Repr

/-- The reference record built by `extract_metabolite_reference`. -/
structure MetaboliteReference where
  chebi : List PyStr
  bigg : List PyStr
  metanetx : List PyStr
  envipath : List PyStr
  hmdb : List PyStr
  kegg : List PyStr
  lipidmaps : List PyStr
  metacyc : List PyStr
  reactome : List PyStr
  sabiork : List PyStr
  seed : List PyStr
  slm : List PyStr
deriving DecidableEq, Repr

/-- The record built for a metabolite by `extract_metabolite`. -/
structure Metabolite where
  identifier : PyStr
  name : PyStr
  formula : PyStr
  mass : PyStr
  charge : PyStr
  reference : MetaboliteReference
deriving DecidableEq, Repr

/-- The record built for a reaction participant by
`extract_reaction_participant_by_role`. -/
structure Participant where
  metabolite : PyStr
  compartment : PyStr
  coefficient : ℚ
  role : PyStr
deriving DecidableEq, Repr

/-- The reference record built by `extract_reaction_reference`. -/
structure ReactionReference where
  recon2m2 : PyStr
  rhea : List PyStr
  bigg : List PyStr
  metanetx : List PyStr
  enzyme_commission : List PyStr
  kegg : List PyStr
  metacyc : List PyStr
  reactome : List PyStr
  sabiork : List PyStr
  seed : List PyStr
deriving DecidableEq, Repr

/-- The record built for a reaction by `extract_reaction`. -/
structure Reaction where
  identifier : PyStr
  equation : PyStr
  reversibility : Bool
  participants : List Participant
  processes : List PyStr
  genes : List PyStr
  reference : ReactionReference
deriving DecidableEq, Repr

/-- `extract_compartments`: build a dictionary keyed by each row's
identifier. -/
def extract_compartments (source_compartments : List CompartmentRow) : Dict PyStr Compartment :=
  source_compartments.foldl
    (fun compartments source_compartment =>
      dictSet compartments source_compartment.identifier
        { identifier := source_compartment.identifier, name := source_compartment.name })
    []

/-- `extract_reference_information`: split on `";"`, keep the substrings
containing the key, strip the key from each. -/
def extract_reference_information (key source_reference : PyStr) : List PyStr :=
  let references := pySplit [';'] source_reference
  let pairs := references.filter (fun pair => pyIn key pair)
  let identifiers := pairs.map (fun pair => pyReplace key [] pair)
  identifiers

/-- `extract_metabolite_reference`. -/
def extract_metabolite_reference (identifier source_reference : PyStr) : MetaboliteReference :=
  let chebi := extract_reference_information "chebi:".toList source_reference
  let bigg := extract_reference_information "bigg:".toList source_reference
  let metanetx_prior := extract_reference_information "deprecated:".toList source_reference
  let metanetx := identifier :: metanetx_prior
  let envipath := extract_reference_information "envipath:".toList source_reference
  let hmdb := extract_reference_information "hmdb:".toList source_reference
  let kegg := extract_reference_information "kegg:".toList source_reference
  let lipidmaps := extract_reference_information "lipidmaps:".toList source_reference
  let metacyc := extract_reference_information "metacyc:".toList source_reference
  let reactome := extract_reference_information "reactome:".toList source_reference
  let sabiork := extract_reference_information "sabiork:".toList source_reference
  let seed := extract_reference_information "seed:".toList source_reference
  let slm := extract_reference_information "slm:".toList source_reference
  { chebi := chebi, bigg := bigg, metanetx := metanetx, envipath := envipath,
    hmdb := hmdb, kegg := kegg, lipidmaps := lipidmaps, metacyc := metacyc,
    reactome := reactome, sabiork := sabiork, seed := seed, slm := slm }

/-- `extract_metabolite`. -/
def extract_metabolite (source_metabolite : MetaboliteRow) : Metabolite :=
  { identifier := source_metabolite.identifier,
    name := source_metabolite.name,
    formula := source_metabolite.formula,
    mass := source_metabolite.mass,
    charge := source_metabolite.charge,
    reference := extract_metabolite_reference source_metabolite.identifier
      source_metabolite.reference }

/-- `extract_metabolites`: build a dictionary keyed by each record's
identifier. -/
def extract_metabolites (source_metabolites : List MetaboliteRow) : Dict PyStr Metabolite :=
  source_metabolites.foldl
    (fun metabolites source_metabolite =>
      let record := extract_metabolite source_metabolite
      dictSet metabolites record.identifier record)
    []

/-- `extract_reaction_reversibility`: `True` iff `"<==>"` occurs in the
equation. -/
def extract_reaction_reversibility (equation : PyStr) : Bool :=
  pyIn "<==>".toList equation

/-- The pair of raw term lists produced by
`extract_reaction_equation_raw_participants_by_role`. -/
structure RawSides where
  reactants : List PyStr
  products : List PyStr
deriving DecidableEq, Repr

/-- `extract_reaction_equation_raw_participants_by_role`: split the
equation at its directionality token.  With no recognized token the
Python function reads the unassigned local `reactants_side`, raising
`UnboundLocalError`. -/
def extract_reaction_equation_raw_participants_by_role (equation : PyStr) :
    Except PyErr RawSides :=
  if pyIn "<==>".toList equation then do
    let equation_sides := pySplit " <==> ".toList equation
    let reactants_side ← pyIndex equation_sides 0
    let products_side ← pyIndex equation_sides 1
    pure { reactants := pySplit " + ".toList reactants_side,
           products := pySplit " + ".toList products_side }
  else if pyIn "-->".toList equation then do
    let equation_sides := pySplit " --> ".toList equation
    let reactants_side ← pyIndex equation_sides 0
    let products_side ← pyIndex equation_sides 1
    pure { reactants := pySplit " + ".toList reactants_side,
           products := pySplit " + ".toList products_side }
  else if pyIn "<--".toList equation then do
    let equation_sides := pySplit " <-- ".toList equation
    let reactants_side ← pyIndex equation_sides 1
    let products_side ← pyIndex equation_sides 0
    pure { reactants := pySplit " + ".toList reactants_side,
           products := pySplit " + ".toList products_side }
  else
    .error .unboundLocal

/-- `extract_reaction_participant_by_role`: parse one raw term
`<coefficient> <metabolite>@<compartment>`. -/
def extract_reaction_participant_by_role (participant_raw role : PyStr) :
    Except PyErr Participant := do
  let participant_split := pySplit [' '] participant_raw
  let c0 ← pyIndex participant_split 0
  let coefficient ← pyFloatE c0
  let p1 ← pyIndex participant_split 1
  let metabolite_compartment := pySplit ['@'] p1
  let metabolite ← pyIndex metabolite_compartment 0
  let compartment ← pyIndex metabolite_compartment 1
  pure { metabolite := metabolite, compartment := compartment,
         coefficient := coefficient, role := role }

/-- `extract_reaction_participants_by_role`: parse each raw term of one
side, in order, aborting at the first failure as the Python loop does. -/
def extract_reaction_participants_by_role (participants_raw : List PyStr) (role : PyStr) :
    Except PyErr (List Participant) :=
  match participants_raw with
  | [] => .ok []
  | participant_raw :: rest => do
    let record ← extract_reaction_participant_by_role participant_raw role
    let records ← extract_reaction_participants_by_role rest role
    pure (record :: records)

/-- `extract_reaction_participants`: reactants followed by products. -/
def extract_reaction_participants (equation : PyStr) : Except PyErr (List Participant) := do
  let participants_raw ← extract_reaction_equation_raw_participants_by_role equation
  let reactants ← extract_reaction_participants_by_role participants_raw.reactants
    "reactant".toList
  let products ← extract_reaction_participants_by_role participants_raw.products
    "product".toList
  pure (reactants ++ products)

/-- `extract_reaction_processes`. -/
def extract_reaction_processes (source_process : PyStr) : List PyStr :=
  extract_reference_information "model:".toList source_process

/-- `extract_reaction_genes`: `source_gene["genes"]` on `None` raises
`TypeError` (`NoneType` is not subscriptable). -/
def extract_reaction_genes (source_gene : Option GeneRow) : Except PyErr (List PyStr) :=
  match source_gene with
  | none => .error .typeError
  | some gene => .ok (pySplit [';'] gene.genes)

/-- `extract_reaction_reference`. -/
def extract_reaction_reference (recon2m2 metanetx enzyme_commission source_reference : PyStr) :
    ReactionReference :=
  let rhea := extract_reference_information "rhea:".toList source_reference
  let bigg := extract_reference_information "bigg:".toList source_reference
  let metanetx_prior := extract_reference_information "deprecated:".toList source_reference
  let metanetx_current := metanetx :: metanetx_prior
  let kegg := extract_reference_information "kegg:".toList source_reference
  let metacyc := extract_reference_information "metacyc:".toList source_reference
  let reactome := extract_reference_information "reactome:".toList source_reference
  let sabiork := extract_reference_information "sabiork:".toList source_reference
  let seed := extract_reference_information "seed:".toList source_reference
  { recon2m2 := recon2m2, rhea := rhea, bigg := bigg, metanetx := metanetx_current,
    enzyme_commission := pySplit [';'] enzyme_commission, kegg := kegg,
    metacyc := metacyc, reactome := reactome, sabiork := sabiork, seed := seed }

/-- `extract_reaction`. -/
def extract_reaction (source_reaction : ReactionRow) (source_gene : Option GeneRow) :
    Except PyErr Reaction := do
  let identifier := source_reaction.identifier
  let equation := source_reaction.equation
  let reversibility := extract_reaction_reversibility equation
  let participants ← extract_reaction_participants equation
  let processes := extract_reaction_processes source_reaction.process
  let reference := extract_reaction_reference source_reaction.recon2m2
    source_reaction.metanetx source_reaction.enzyme_commission source_reaction.reference
  let genes ← extract_reaction_genes source_gene
  pure { identifier := identifier, equation := equation, reversibility := reversibility,
         participants := participants, processes := processes, genes := genes,
         reference := reference }

/-- `extract_reactions`: for each reaction row, look up its gene row by
exact identifier equality, extract the record, and key it by the record's
identifier; the loop body's uncaught exceptions abort the whole run. -/
def extract_reactions (source_reactions : List ReactionRow) (source_genes : List GeneRow) :
    Except PyErr (Dict PyStr Reaction) :=
  source_reactions.foldlM
    (fun reactions source_reaction => do
      let source_gene := find
        (fun gene_record => gene_record.reaction == source_reaction.identifier) source_genes
      let record ← extract_reaction source_reaction source_gene
      pure (dictSet reactions record.identifier record))
    []

/-!
Embedding of the SBML tree operations of
`src/application/curation_recon2m2_metanetx.py` (and the identical
functions of `src/application/reconciliation.py`): the tree is reduced to
the attributes those functions read and write — each species element's
`id` and `compartment` attributes and the `rdf:about` attributes of its
`rdf:description` descendants; each compartment element's `id` and `name`
attributes; each reaction's `speciesReference` descendants' `species`
attributes.
-/

/-- `re.sub` with a pattern anchored at the start of the string: when
`pre` is a prefix of `s` it is replaced once by `rep`, otherwise `s` is
unchanged (models `re.sub(r"^M_", "", s)` and `re.sub(r"^#M_", "#", s)`). -/
def reSubStart (pre rep s : PyStr) : PyStr :=
  if pre.isPrefixOf s then rep ++ s.drop pre.length else s

/-- The character class `[eciglmnrx]` of the boundary-rewrite pattern. -/
def boundaryLetters : List Char := ['e', 'c', 'i', 'g', 'l', 'm', 'n', 'r', 'x']

/-- The literal tail `_boundary` of the boundary-rewrite pattern. -/
def boundaryTail : PyStr := "_boundary".toList

/-- Whether the regular expression `_[eciglmnrx]_boundary` matches at the
start of `s`. -/
def isBoundaryMatch : PyStr → Bool
  | c :: l :: rest => c == '_' && boundaryLetters.contains l && boundaryTail.isPrefixOf rest
  | _ => false

/-- Whether `s` is free of matches of `_[eciglmnrx]_boundary` (no suffix
of `s` starts with the pattern). -/
def noBoundaryPat : PyStr → Bool
  | [] => true
  | c :: t => !isBoundaryMatch (c :: t) && noBoundaryPat t

/-- Fuel-indexed worker for `pySubBoundary`: scan left to right replacing
each leftmost non-overlapping match of `_[eciglmnrx]_boundary` (11
characters) by `_b`, as `re.sub` does. -/
def pySubBoundaryF : Nat → PyStr → PyStr
  | 0, s => s
  | _ + 1, [] => []
  | n + 1, c :: t =>
    if isBoundaryMatch (c :: t) then
      '_' :: 'b' :: pySubBoundaryF n ((c :: t).drop 11)
    else
      c :: pySubBoundaryF n t

/-- `re.sub(r"_[eciglmnrx]_boundary", "_b", s)`. -/
def pySubBoundary (s : PyStr) : PyStr :=
  pySubBoundaryF s.length s

/-- A compartment element of the SBML tree. -/
structure SBMLCompartment where
  id : PyStr
  name : PyStr
deriving DecidableEq, Repr

/-- A species element of the SBML tree: `id` and `compartment` attributes
plus the `rdf:about` attributes of its `rdf:description` descendants. -/
structure SBMLSpecies where
  id : PyStr
  compartment : PyStr
  abouts : List PyStr
deriving DecidableEq, Repr

/-- A reaction element of the SBML tree: the `species` attributes of its
`speciesReference` descendants, in document order. -/
structure SBMLReaction where
  speciesRefs : List PyStr
deriving DecidableEq, Repr

/-- The sections of the SBML model that the tree operations traverse. -/
structure SBMLModel where
  compartments : List SBMLCompartment
  species : List SBMLSpecies
  reactions : List SBMLReaction
deriving DecidableEq, Repr

/-- `removeModelIdentifierPrefix` (= `remove_model_identifier_prefix` in
`reconciliation.py`): strip a leading `M_` from every species id and
every reaction `speciesReference`, and rewrite a leading `#M_` to `#` in
every species description's `rdf:about` attribute. -/
def removeModelIdentifierPrefix (m : SBMLModel) : SBMLModel :=
  { m with
    species := m.species.map (fun metabolite =>
      { metabolite with
        id := reSubStart "M_".toList [] metabolite.id,
        abouts := metabolite.abouts.map (fun about =>
          reSubStart "#M_".toList ['#'] about) }),
    reactions := m.reactions.map (fun reaction =>
      { reaction with
        speciesRefs := reaction.speciesRefs.map (fun species =>
          reSubStart "M_".toList [] species) }) }

/-- `changeModelBoundary` (= `change_model_boundary` in
`reconciliation.py`): rename the `b` compartment; for every species whose
id contains `boundary`, apply the `_[eciglmnrx]_boundary` → `_b` rewrite
to its id and set its compartment attribute to `b`; apply the same
rewrite to every reaction `speciesReference` containing `boundary`. -/
def changeModelBoundary (m : SBMLModel) : SBMLModel :=
  { m with
    compartments := m.compartments.map (fun compartment =>
      if compartment.id = "b".toList then
        { compartment with name := "model boundary".toList }
      else compartment),
    species := m.species.map (fun metabolite =>
      if pyIn "boundary".toList metabolite.id then
        { metabolite with
          id := pySubBoundary metabolite.id,
          compartment := "b".toList }
      else metabolite),
    reactions := m.reactions.map (fun reaction =>
      { reaction with
        speciesRefs := reaction.speciesRefs.map (fun species =>
          if pyIn "boundary".toList species then pySubBoundary species else species) }) }

/-!
Embedding of `src/application/refinement.py` (value level; the explicit
object-store embedding used by the frame claim follows).
-/

/-- A row of the metabolite removal/replacement table. -/
structure RemovalRow where
  removal_identifier : PyStr
  replacement_identifier : PyStr
deriving DecidableEq, Repr

/-- A row of the reaction removal table. -/
structure ReactionRemovalRow where
  identifier : PyStr
deriving DecidableEq, Repr

/-- The participant rewrite of the `remove_metabolites` loop:
`participant["metabolite"] = replacement` when the metabolite equals the
removal identifier. -/
def rewriteParticipant (row : RemovalRow) (participant : Participant) : Participant :=
  if participant.metabolite = row.removal_identifier then
    { participant with metabolite := row.replacement_identifier }
  else participant

/-- The per-reaction participant scan of the `remove_metabolites` loop. -/
def rewriteReaction (row : RemovalRow) (reaction : Reaction) : Reaction :=
  { reaction with participants := reaction.participants.map (rewriteParticipant row) }

/-- One iteration of the `remove_metabolites` loop: delete the removal
identifier from the metabolite dictionary if present, and rewrite every
participant of every reaction whose metabolite equals the removal
identifier to the replacement identifier. -/
def remove_metabolites_row (state : Dict PyStr Metabolite × Dict PyStr Reaction)
    (row : RemovalRow) : Dict PyStr Metabolite × Dict PyStr Reaction :=
  let metabolites_novel :=
    if dictContains state.1 row.removal_identifier then
      dictDel state.1 row.removal_identifier
    else state.1
  let reactions_novel := state.2.map (fun kv => (kv.1, rewriteReaction row kv.2))
  (metabolites_novel, reactions_novel)

/-- `remove_metabolites`: fold the removal table over deep copies of the
metabolite and reaction dictionaries (the copies are values here; the
aliasing content of `copy.deepcopy` is treated in the store embedding). -/
def remove_metabolites (removal_metabolites : List RemovalRow)
    (metabolites_original : Dict PyStr Metabolite)
    (reactions_original : Dict PyStr Reaction) :
    Dict PyStr Metabolite × Dict PyStr Reaction :=
  removal_metabolites.foldl remove_metabolites_row
    (metabolites_original, reactions_original)

/-- `remove_reactions`: delete each listed reaction identifier when
present. -/
def remove_reactions (removal_reactions : List ReactionRemovalRow)
    (reactions_original : Dict PyStr Reaction) : Dict PyStr Reaction :=
  removal_reactions.foldl
    (fun reactions_novel row =>
      if dictContains reactions_novel row.identifier then
        dictDel reactions_novel row.identifier
      else reactions_novel)
    reactions_original

/-!
Object-store embedding for the frame (non-mutation) claim.  Python
objects that the refinement and tree functions can mutate in place or
alias — the top-level metabolite and reaction dictionaries, the
participant records inside reaction records, and the XML elements — live
in an address-indexed store; `copy.deepcopy` allocates fresh addresses.
Records that no modelled operation ever mutates (metabolite records,
the value fields of reaction records) are kept as values inside cells.
-/

/-- A reaction record whose participant objects are store addresses. -/
structure HeapReaction where
  identifier : PyStr
  equation : PyStr
  reversibility : Bool
  participants : List Nat
  processes : List PyStr
  genes : List PyStr
  reference : ReactionReference
deriving DecidableEq, Repr

/-- A mutable Python object: a participant record, a metabolite
dictionary, a reaction dictionary, or an XML element (attributes and
child addresses). -/
inductive Cell where
  | part (p : Participant)
  | mdict (d : Dict PyStr Metabolite)
  | rdict (d : Dict PyStr HeapReaction)
  | elt (attrib : Dict PyStr PyStr) (children : List Nat)
deriving DecidableEq, Repr

/-- The store: cells indexed by address, plus the next fresh address. -/
structure Heap where
  cells : Dict Nat Cell
  fresh : Nat
deriving DecidableEq, Repr

/-- Dereference an address. -/
def readCell (h : Heap) (a : Nat) : Option Cell := dictGet? h.cells a

/-- Overwrite the object at an address (in-place mutation). -/
def writeCell (h : Heap) (a : Nat) (c : Cell) : Heap :=
  { h with cells := dictSet h.cells a c }

/-- Allocate a new object at a fresh address. -/
def allocCell (h : Heap) (c : Cell) : Nat × Heap :=
  (h.fresh, { cells := dictSet h.cells h.fresh c, fresh := h.fresh + 1 })

/-- Read a metabolite dictionary (the empty dictionary at an address not
holding one; the theorems' inputs always hold one). -/
def readMDict (h : Heap) (a : Nat) : Dict PyStr Metabolite :=
  match readCell h a with
  | some (.mdict d) => d
  | _ => []

/-- Read a reaction dictionary (the empty dictionary at an address not
holding one). -/
def readRDict (h : Heap) (a : Nat) : Dict PyStr HeapReaction :=
  match readCell h a with
  | some (.rdict d) => d
  | _ => []

/-- `copy.deepcopy` of a list of participant objects: read each one and
allocate a fresh copy, returning the fresh addresses in order. -/
def copyParticipantCells : List Nat → Heap → List Nat × Heap
  | [], h => ([], h)
  | pa :: rest, h =>
    let cell := (readCell h pa).getD
      (.part { metabolite := [], compartment := [], coefficient := 0, role := [] })
    let first := allocCell h cell
    let rest2 := copyParticipantCells rest first.2
    (first.1 :: rest2.1, rest2.2)

/-- `copy.deepcopy` of a reaction dictionary: fresh participant objects
for every reaction, same value fields. -/
def copyReactionDict : Dict PyStr HeapReaction → Heap → Dict PyStr HeapReaction × Heap
  | [], h => ([], h)
  | (k, r) :: rest, h =>
    let ps := copyParticipantCells r.participants h
    let drest := copyReactionDict rest ps.2
    ((k, { r with participants := ps.1 }) :: drest.1, drest.2)

/-- The participant rewrite inside the `remove_metabolites` loop:
`participant["metabolite"] = replacement` mutates the participant object
in place when its metabolite equals the removal identifier. -/
def rewriteParticipantCell (row : RemovalRow) (h : Heap) (pa : Nat) : Heap :=
  match readCell h pa with
  | some (.part p) =>
    if p.metabolite = row.removal_identifier then
      writeCell h pa (.part { p with metabolite := row.replacement_identifier })
    else h
  | _ => h

/-- One iteration of the `remove_metabolites` loop over the store:
`del metabolites_novel[removal]` when present, then the participant scan
over every reaction of `reactions_novel`. -/
def removeMetabolitesStoreRow (dmA2 drA2 : Nat) (h : Heap) (row : RemovalRow) : Heap :=
  let dm := readMDict h dmA2
  let h1 :=
    if dictContains dm row.removal_identifier then
      writeCell h dmA2 (.mdict (dictDel dm row.removal_identifier))
    else h
  (readRDict h1 drA2).foldl
    (fun hc kv => kv.2.participants.foldl (fun hcc pa => rewriteParticipantCell row hcc pa) hc)
    h1

/-- `remove_metabolites` over the store: deep-copy the metabolite
dictionary, then the reaction dictionary (with its participant objects),
then run the removal loop on the copies; returns the addresses of the two
new dictionaries. -/
def removeMetabolitesStore (removal_metabolites : List RemovalRow) (dmA drA : Nat)
    (h : Heap) : (Nat × Nat) × Heap :=
  let md := allocCell h (.mdict (readMDict h dmA))
  let dr2 := copyReactionDict (readRDict md.2 drA) md.2
  let rd := allocCell dr2.2 (.rdict dr2.1)
  let h4 := removal_metabolites.foldl (removeMetabolitesStoreRow md.1 rd.1) rd.2
  ((md.1, rd.1), h4)

/-- `remove_reactions` over the store: deep-copy the reaction dictionary,
then delete the listed identifiers from the copy. -/
def removeReactionsStore (removal_reactions : List ReactionRemovalRow) (drA : Nat)
    (h : Heap) : Nat × Heap :=
  let dr2 := copyReactionDict (readRDict h drA) h
  let rd := allocCell dr2.2 (.rdict dr2.1)
  let h3 := removal_reactions.foldl
    (fun hc row =>
      let d := readRDict hc rd.1
      if dictContains d row.identifier then
        writeCell hc rd.1 (.rdict (dictDel d row.identifier))
      else hc)
    rd.2
  (rd.1, h3)

/-- An XML element tree, given by value (the source only reads the input
tree while deep-copying it). -/
inductive XTree where
  | node (attrib : Dict PyStr PyStr) (children : List XTree)

/-- `copy.deepcopy` of a forest of XML elements: children first, then the
element itself, each at a fresh address. -/
def copyForest : List XTree → Heap → List Nat × Heap
  | [], h => ([], h)
  | XTree.node attrib children :: rest, h =>
    let cas := copyForest children h
    let a := allocCell cas.2 (.elt attrib cas.1)
    let as2 := copyForest rest a.2
    (a.1 :: as2.1, as2.2)

/-- `copy.deepcopy` of one XML element tree. -/
def copyTree (t : XTree) (h : Heap) : Nat × Heap :=
  match t with
  | .node attrib children =>
    let cas := copyForest children h
    allocCell cas.2 (.elt attrib cas.1)

/-- The child addresses of an element in the store. -/
def eltChildren (h : Heap) (a : Nat) : List Nat :=
  match readCell h a with
  | some (.elt _ children) => children
  | _ => []

/-- The references returned by `copyInterpretModelContent`. -/
structure ModelRefs where
  content : Nat
  model : Nat
  compartments : Nat
  metabolites : Nat
  reactions : Nat
deriving DecidableEq, Repr

/-- `copyInterpretModelContent` (= `utility.copy_interpret_content_recon2m2`):
deep-copy the content, then take `model = sbml[0]`,
`compartments = model[1]`, `metabolites = model[2]`,
`reactions = model[3]` inside the copy (`IndexError` when a section is
missing). -/
def copyInterpretModelContent (content : XTree) (h : Heap) :
    Except PyErr ModelRefs × Heap :=
  let copied := copyTree content h
  let refs : Except PyErr ModelRefs := do
    let model ← pyIndex (eltChildren copied.2 copied.1) 0
    let compartments ← pyIndex (eltChildren copied.2 model) 1
    let metabolites ← pyIndex (eltChildren copied.2 model) 2
    let reactions ← pyIndex (eltChildren copied.2 model) 3
    pure { content := copied.1, model := model, compartments := compartments,
           metabolites := metabolites, reactions := reactions }
  (refs, copied.2)

/-!
Term-level view of equation sides, used to state the equation-parser
claims, and the specification-side description of reference parsing.
-/

/-- A raw equation term `<coefficient> <metabolite>@<compartment>`,
together with the coefficient's numeric value. -/
structure RawTerm where
  coef : PyStr
  met : PyStr
  comp : PyStr
  val : ℚ

/-- The text of a raw term. -/
def RawTerm.toRaw (t : RawTerm) : PyStr :=
  t.coef ++ [' '] ++ t.met ++ ['@'] ++ t.comp

/-- Well-formedness of a raw term: the coefficient text has no space and
parses to the stated value, and metabolite and compartment contain
neither the space nor the `@` separator. -/
abbrev RawTerm.wf (t : RawTerm) : Prop :=
  (∀ c ∈ t.coef, c ≠ ' ') ∧ (∀ c ∈ t.met, c ≠ ' ' ∧ c ≠ '@') ∧
    (∀ c ∈ t.comp, c ≠ ' ' ∧ c ≠ '@') ∧ pyFloat t.coef = some t.val

/-- The participant record a well-formed raw term parses to. -/
def participantOfTerm (role : PyStr) (t : RawTerm) : Participant :=
  { metabolite := t.met, compartment := t.comp, coefficient := t.val, role := role }

/-- Specification-side description of reference parsing (spec section
4.3), stated directly on the list of separator-split substrings: keep
exactly the substrings that contain the key token, strip the key token
from each, preserve the order.  Compared against
`extract_reference_information` below. -/
def reference_parsing_spec (key : PyStr) : List PyStr → List PyStr
  | [] => []
  | piece :: rest =>
    if pyIn key piece then
      pyReplace key [] piece :: reference_parsing_spec key rest
    else
      reference_parsing_spec key rest

/-- A metabolite reference record with every category empty, for concrete
test models. -/
def emptyMetaboliteReference : MetaboliteReference :=
  { chebi := [], bigg := [], metanetx := [], envipath := [], hmdb := [], kegg := [],
    lipidmaps := [], metacyc := [], reactome := [], sabiork := [], seed := [], slm := [] }

/-- A reaction reference record with every category empty, for concrete
test models. -/
def emptyReactionReference : ReactionReference :=
  { recon2m2 := [], rhea := [], bigg := [], metanetx := [], enzyme_commission := [],
    kegg := [], metacyc := [], reactome := [], sabiork := [], seed := [] }

/-- A concrete metabolite record with a given identifier. -/
def plainMetabolite (identifier : PyStr) : Metabolite :=
  { identifier := identifier, name := [], formula := [], mass := [], charge := [],
    reference := emptyMetaboliteReference }

/-- A concrete reaction record with a given identifier and participant
list. -/
def plainReaction (identifier : PyStr) (participants : List Participant) : Reaction :=
  { identifier := identifier, equation := [], reversibility := false,
    participants := participants, processes := [], genes := [],
    reference := emptyReactionReference }

/-- Reaction-table row of a well-formed reaction, for concrete runs. -/
def goodReactionRow : ReactionRow :=
  { identifier := "R1".toList, equation := "1 A@c --> 1 B@c".toList, recon2m2 := [],
    metanetx := [], enzyme_commission := [], process := [], reference := [] }

/-- Reaction-table row whose equation has no directionality token. -/
def badReactionRow : ReactionRow :=
  { identifier := "R2".toList, equation := "1 A@c = 1 B@c".toList, recon2m2 := [],
    metanetx := [], enzyme_commission := [], process := [], reference := [] }

/-- Reaction-table row with no matching row in the gene table. -/
def orphanReactionRow : ReactionRow :=
  { identifier := "R3".toList, equation := "1 A@c --> 1 B@c".toList, recon2m2 := [],
    metanetx := [], enzyme_commission := [], process := [], reference := [] }

/-- A gene-table row for a given reaction identifier. -/
def geneRowFor (rid : PyStr) : GeneRow :=
  { reaction := rid, genes := "gene1;gene2".toList, low_bound := [], up_bound := [],
    direction := [] }

/-- One store state extends another: no fresh address was retired and
every previously allocated cell is unchanged. -/
def heapExtends (h0 h : Heap) : Prop :=
  h0.fresh ≤ h.fresh ∧ ∀ a, a < h0.fresh → readCell h a = readCell h0 a

/-- A one-cell store for concrete frame runs. -/
def heap0 : Heap :=
  { cells := [(0, Cell.mdict [("A".toList, plainMetabolite "A".toList)])], fresh := 1 }

/-- A two-metabolite dictionary for concrete removal runs. -/
def sampleMetabolites : Dict PyStr Metabolite :=
  [("A".toList, plainMetabolite "A".toList), ("B".toList, plainMetabolite "B".toList)]

/-- A participant referencing metabolite `A` in compartment `c`. -/
def sampleParticipant : Participant :=
  { metabolite := "A".toList, compartment := "c".toList, coefficient := 1,
    role := "reactant".toList }

/-- A one-reaction dictionary whose single participant references `A`. -/
def sampleReactions : Dict PyStr Reaction :=
  [("r".toList, plainReaction "r".toList [sampleParticipant])]

/-! ## Theorems. -/

/-! Facts about the string primitives. -/

theorem splitFirst_eq (sep : PyStr) :
    ∀ s a b : PyStr, splitFirst sep s = some (a, b) → s = a ++ sep ++ b ∧ sep ≠ [] := by
  intro s
  induction s with
  | nil => intro a b h; simp [splitFirst] at h
  | cons c t ih =>
    intro a b h
    unfold splitFirst at h
    by_cases hp : (!sep.isEmpty && sep.isPrefixOf (c :: t)) = true
    · rw [if_pos hp] at h
      simp only [Option.some.injEq, Prod.mk.injEq] at h
      obtain ⟨ha, hb⟩ := h
      simp only [Bool.and_eq_true, Bool.not_eq_true', List.isEmpty_eq_false] at hp
      obtain ⟨hne, hpre⟩ := hp
      have hpre' : sep <+: c :: t := List.isPrefixOf_iff_prefix.mp hpre
      obtain ⟨r, hr⟩ := hpre'
      subst ha
      constructor
      · rw [← hb, ← hr]
        simp
      · exact hne
    · rw [if_neg hp] at h
      cases hsf : splitFirst sep t with
      | none => rw [hsf] at h; exact absurd h (by simp)
      | some p =>
        obtain ⟨a', b'⟩ := p
        rw [hsf] at h
        simp only [Option.some.injEq, Prod.mk.injEq] at h
        obtain ⟨ha, hb⟩ := h
        obtain ⟨ht, hne⟩ := ih a' b' hsf
        subst ha hb
        constructor
        · simp [ht]
        · exact hne

theorem splitFirst_length (sep s a b : PyStr) (h : splitFirst sep s = some (a, b)) :
    b.length < s.length := by
  obtain ⟨hs, hne⟩ := splitFirst_eq sep s a b h
  have : sep.length ≠ 0 := by simpa using hne
  rw [hs]
  simp only [List.length_append]
  omega

theorem pySplitF_fuel (sep : PyStr) :
    ∀ n m (s : PyStr), s.length ≤ n → s.length ≤ m → pySplitF sep n s = pySplitF sep m s := by
  intro n
  induction n with
  | zero =>
    intro m s hn _
    have : s = [] := List.length_eq_zero.mp (Nat.le_zero.mp hn)
    subst this
    cases m with
    | zero => rfl
    | succ m => simp [pySplitF, splitFirst]
  | succ n ih =>
    intro m s hn hm
    cases m with
    | zero =>
      have : s = [] := List.length_eq_zero.mp (Nat.le_zero.mp hm)
      subst this
      simp [pySplitF, splitFirst]
    | succ m =>
      cases hsf : splitFirst sep s with
      | none => simp [pySplitF, hsf]
      | some p =>
        obtain ⟨a, b⟩ := p
        have hlen := splitFirst_length sep s a b hsf
        simp only [pySplitF, hsf]
        rw [ih m b (by omega) (by omega)]

theorem pySplit_of_none (sep s : PyStr) (h : splitFirst sep s = none) :
    pySplit sep s = [s] := by
  unfold pySplit
  cases hl : s.length with
  | zero => rfl
  | succ n => simp [pySplitF, h]

theorem pySplit_of_some (sep s a b : PyStr) (h : splitFirst sep s = some (a, b)) :
    pySplit sep s = a :: pySplit sep b := by
  unfold pySplit
  cases hl : s.length with
  | zero =>
    have : s = [] := List.length_eq_zero.mp hl
    subst this
    simp [splitFirst] at h
  | succ n =>
    simp only [pySplitF, h]
    have hlen := splitFirst_length sep s a b h
    rw [pySplitF_fuel sep n b.length b (by omega) (by omega)]

theorem pyIn_infix_iff (needle hay : PyStr) : pyIn needle hay = true ↔ needle <:+: hay := by
  by_cases hne : needle = []
  · subst hne
    simp [pyIn, List.nil_infix]
  · unfold pyIn
    have hni : needle.isEmpty = false := by simpa [List.isEmpty_eq_false] using hne
    simp only [hni, Bool.false_or]
    induction hay with
    | nil =>
      simp only [splitFirst, Option.isSome_none, List.infix_nil]
      constructor
      · intro h; cases h
      · intro h; exact absurd h hne
    | cons c t ih =>
      unfold splitFirst
      by_cases hp : (!needle.isEmpty && needle.isPrefixOf (c :: t)) = true
      · rw [if_pos hp]
        simp only [Bool.and_eq_true, Bool.not_eq_true', List.isEmpty_eq_false] at hp
        have : needle <+: c :: t := List.isPrefixOf_iff_prefix.mp hp.2
        simp [this.isInfix]
      · rw [if_neg hp]
        have hnp : needle.isPrefixOf (c :: t) = false := by
          rcases hb : needle.isPrefixOf (c :: t) with _ | _
          · rfl
          · exact absurd (by simp [hni, hb]) hp
        have hnpre : ¬ needle <+: c :: t := by
          intro hc
          rw [← List.isPrefixOf_iff_prefix] at hc
          simp [hc] at hnp
        rw [List.infix_cons_iff]
        cases hsf : splitFirst needle t with
        | none => simpa [hsf, hnpre] using ih.trans (by tauto)
        | some p => simpa [hsf, hnpre] using ih.trans (by tauto)

theorem splitFirst_singleton_head (c : Char) (s : PyStr) :
    splitFirst [c] (c :: s) = some ([], s) := by
  simp [splitFirst, List.isPrefixOf]

theorem splitFirst_singleton_cons (c x : Char) (s : PyStr) (hx : x ≠ c) :
    splitFirst [c] (x :: s) =
      match splitFirst [c] s with
      | some (a, b) => some (x :: a, b)
      | none => none := by
  have hpre : ([c].isPrefixOf (x :: s)) = false := by
    simp only [List.isPrefixOf, Bool.and_true, beq_eq_false_iff_ne, ne_eq]
    exact fun hc => hx hc.symm
  simp [splitFirst, hpre]

theorem splitFirst_singleton_none (c : Char) :
    ∀ s : PyStr, (∀ x ∈ s, x ≠ c) → splitFirst [c] s = none := by
  intro s
  induction s with
  | nil => intro _; rfl
  | cons x t ih =>
    intro h
    rw [splitFirst_singleton_cons c x t (h x (by simp))]
    rw [ih (fun y hy => h y (by simp [hy]))]

theorem splitFirst_singleton_some (c : Char) (b : PyStr) :
    ∀ a : PyStr, (∀ x ∈ a, x ≠ c) → splitFirst [c] (a ++ c :: b) = some (a, b) := by
  intro a
  induction a with
  | nil =>
    intro _
    rw [List.nil_append]
    exact splitFirst_singleton_head c b
  | cons x t ih =>
    intro h
    rw [List.cons_append]
    rw [splitFirst_singleton_cons c x (t ++ c :: b) (h x (by simp))]
    rw [ih (fun y hy => h y (by simp [hy]))]

theorem pySplit_singleton_pair (c : Char) (a b : PyStr)
    (ha : ∀ x ∈ a, x ≠ c) (hb : ∀ x ∈ b, x ≠ c) :
    pySplit [c] (a ++ c :: b) = [a, b] := by
  rw [pySplit_of_some [c] _ a b (splitFirst_singleton_some c b a ha)]
  rw [pySplit_of_none [c] b (splitFirst_singleton_none c b hb)]

/-! Basic facts about the dictionary model. -/

theorem dictGet?_dictSet [DecidableEq κ] (d : Dict κ α) (k i : κ) (v : α) :
    dictGet? (dictSet d k v) i = if i = k then some v else dictGet? d i := by
  induction d with
  | nil =>
    rcases eq_or_ne i k with rfl | h
    · simp [dictSet, dictGet?]
    · simp [dictSet, dictGet?, h, Ne.symm h]
  | cons p t ih =>
    obtain ⟨a, b⟩ := p
    rcases eq_or_ne a k with rfl | hak
    · rcases eq_or_ne i a with rfl | hia
      · simp [dictSet, dictGet?]
      · simp [dictSet, dictGet?, hia, Ne.symm hia]
    · rcases eq_or_ne a i with rfl | hai
      · simp [dictSet, dictGet?, hak, Ne.symm hak]
      · simp [dictSet, dictGet?, hak, hai, ih]

theorem dictGet?_dictDel [DecidableEq κ] (d : Dict κ α) (k i : κ) :
    dictGet? (dictDel d k) i = if i = k then none else dictGet? d i := by
  induction d with
  | nil => simp [dictDel, dictGet?]
  | cons p t ih =>
    obtain ⟨a, b⟩ := p
    rcases eq_or_ne a k with rfl | hak
    · rcases eq_or_ne i a with rfl | hia
      · simp [dictDel, dictGet?, ih]
      · simp [dictDel, dictGet?, hia, Ne.symm hia, ih]
    · rcases eq_or_ne a i with rfl | hai
      · simp [dictDel, dictGet?, hak, Ne.symm hak]
      · simp [dictDel, dictGet?, hak, hai, ih]

theorem dictGet?_mapVal [DecidableEq κ] (f : α → β) (d : Dict κ α) (i : κ) :
    dictGet? (d.map (fun kv => (kv.1, f kv.2))) i = (dictGet? d i).map f := by
  induction d with
  | nil => simp [dictGet?]
  | cons p t ih =>
    obtain ⟨a, b⟩ := p
    by_cases hia : a = i <;> simp [dictGet?, hia, ih]

theorem mem_dictKeys_dictSet [DecidableEq κ] (d : Dict κ α) (k v x) :
    x ∈ dictKeys (dictSet d k v) ↔ x ∈ dictKeys d ∨ x = k := by
  induction d with
  | nil => simp [dictSet, dictKeys]
  | cons p t ih =>
    obtain ⟨a, b⟩ := p
    by_cases hak : a = k
    · subst hak
      simp [dictSet, dictKeys]
      tauto
    · simp [dictSet, dictKeys, hak] at ih ⊢
      tauto

theorem nodup_dictKeys_dictSet [DecidableEq κ] (d : Dict κ α) (k v)
    (h : (dictKeys d).Nodup) : (dictKeys (dictSet d k v)).Nodup := by
  induction d with
  | nil => simp [dictSet, dictKeys]
  | cons p t ih =>
    obtain ⟨a, b⟩ := p
    simp only [dictKeys, List.map_cons, List.nodup_cons] at h
    by_cases hak : a = k
    · subst hak
      simpa [dictSet, dictKeys] using h
    · simp only [dictSet, if_neg hak, dictKeys, List.map_cons, List.nodup_cons]
      refine ⟨?_, ih h.2⟩
      rw [show (dictSet t k v).map Prod.fst = dictKeys (dictSet t k v) from rfl]
      rw [mem_dictKeys_dictSet]
      push_neg
      exact ⟨h.1, hak⟩

/-! Facts about `find` and the monadic extraction plumbing. -/

theorem find_eq_none_of_all (p : α → Bool) :
    ∀ l : List α, (∀ x ∈ l, p x = false) → find p l = none := by
  intro l
  induction l with
  | nil => intro _; rfl
  | cons x t ih =>
    intro h
    simp only [find, h x (by simp), Bool.false_eq_true, if_false]
    exact ih (fun y hy => h y (by simp [hy]))

theorem find_some_sat (p : α → Bool) :
    ∀ (l : List α) (a : α), find p l = some a → p a = true := by
  intro l
  induction l with
  | nil => intro a h; exact absurd h (by simp [find])
  | cons x t ih =>
    intro a h
    by_cases hx : p x = true
    · simp only [find, hx, if_true, Option.some.injEq] at h
      rw [← h]; exact hx
    · simp only [find, hx, if_false] at h
      exact ih a h

theorem extract_reaction_identifier_of_ok (row : ReactionRow) (g : Option GeneRow)
    (rec : Reaction) (h : extract_reaction row g = .ok rec) :
    rec.identifier = row.identifier := by
  simp only [extract_reaction] at h
  cases hp : extract_reaction_participants row.equation with
  | error e =>
    rw [hp] at h
    simp only [Bind.bind, Except.bind, Functor.map, Except.map, pure, Except.pure] at h
    exact Except.noConfusion h
  | ok ps =>
    rw [hp] at h
    cases hg : extract_reaction_genes g with
    | error e =>
      rw [hg] at h
      simp only [Bind.bind, Except.bind, Functor.map, Except.map, pure, Except.pure] at h
      exact Except.noConfusion h
    | ok gs =>
      rw [hg] at h
      simp only [Bind.bind, Except.bind, Functor.map, Except.map, pure, Except.pure,
        Except.ok.injEq] at h
      rw [← h]

theorem extract_reaction_error_of_participants (row : ReactionRow) (g : Option GeneRow)
    (e : PyErr) (h : extract_reaction_participants row.equation = .error e) :
    extract_reaction row g = .error e := by
  simp only [extract_reaction]
  rw [h]
  rfl

theorem extract_reaction_error_of_no_gene (row : ReactionRow) (ps : List Participant)
    (h : extract_reaction_participants row.equation = .ok ps) :
    extract_reaction row none = .error .typeError := by
  simp only [extract_reaction]
  rw [h]
  rfl

theorem raw_participants_error_of_no_token (equation : PyStr)
    (h1 : pyIn "<==>".toList equation = false)
    (h2 : pyIn "-->".toList equation = false)
    (h3 : pyIn "<--".toList equation = false) :
    extract_reaction_equation_raw_participants_by_role equation = .error .unboundLocal := by
  have h1' : pyIn ['<', '=', '=', '>'] equation = false := h1
  have h2' : pyIn ['-', '-', '>'] equation = false := h2
  have h3' : pyIn ['<', '-', '-'] equation = false := h3
  simp [extract_reaction_equation_raw_participants_by_role, h1', h2', h3']

theorem participants_error_of_no_token (equation : PyStr)
    (h1 : pyIn "<==>".toList equation = false)
    (h2 : pyIn "-->".toList equation = false)
    (h3 : pyIn "<--".toList equation = false) :
    extract_reaction_participants equation = .error .unboundLocal := by
  simp only [extract_reaction_participants]
  rw [raw_participants_error_of_no_token equation h1 h2 h3]
  rfl

/-- The fold step of `extract_reactions`. -/
def extractReactionsStep (source_genes : List GeneRow)
    (reactions : Dict PyStr Reaction) (source_reaction : ReactionRow) :
    Except PyErr (Dict PyStr Reaction) := do
  let source_gene := find
    (fun gene_record => gene_record.reaction == source_reaction.identifier) source_genes
  let record ← extract_reaction source_reaction source_gene
  pure (dictSet reactions record.identifier record)

theorem extract_reactions_eq_foldlM (source_reactions : List ReactionRow)
    (source_genes : List GeneRow) :
    extract_reactions source_reactions source_genes =
      source_reactions.foldlM (extractReactionsStep source_genes) [] := rfl

theorem extractReactionsStep_ok (genes : List GeneRow) (d0 : Dict PyStr Reaction)
    (r : ReactionRow) (d1 : Dict PyStr Reaction)
    (h : extractReactionsStep genes d0 r = .ok d1) :
    ∃ rec, extract_reaction r (find (fun g => g.reaction == r.identifier) genes) = .ok rec ∧
      d1 = dictSet d0 r.identifier rec := by
  simp only [extractReactionsStep] at h
  cases her : extract_reaction r (find (fun g => g.reaction == r.identifier) genes) with
  | error e =>
    rw [her] at h
    exact Except.noConfusion h
  | ok rec =>
    rw [her] at h
    simp only [Bind.bind, Except.bind, pure, Except.pure, Except.ok.injEq] at h
    refine ⟨rec, rfl, ?_⟩
    rw [← h, extract_reaction_identifier_of_ok r _ rec her]

/-! Fold lemmas establishing the keyed-dictionary shape of extraction. -/

theorem foldl_dictSet_getLast {ρ β : Type} (key : ρ → PyStr) (val : ρ → β) :
    ∀ (rows : List ρ) (d0 : Dict PyStr β) (i : PyStr),
      dictGet? (rows.foldl (fun d r => dictSet d (key r) (val r)) d0) i =
        (((rows.filter (fun r => decide (key r = i))).getLast?.map val).or (dictGet? d0 i)) := by
  intro rows
  induction rows with
  | nil => intro d0 i; simp
  | cons r rest ih =>
    intro d0 i
    rw [List.foldl_cons, ih]
    by_cases hk : key r = i
    · have hfc : (r :: rest).filter (fun x => decide (key x = i)) =
          r :: rest.filter (fun x => decide (key x = i)) := by
        simp [List.filter_cons, hk]
      rw [hfc]
      cases hfl : (rest.filter (fun x => decide (key x = i))).getLast? with
      | some r' => simp [List.getLast?_cons, hfl]
      | none =>
        simp only [List.getLast?_cons, hfl, Option.getD_none, Option.map_none]
        rw [dictGet?_dictSet, if_pos hk.symm]
        rfl
    · have hfc : (r :: rest).filter (fun x => decide (key x = i)) =
          rest.filter (fun x => decide (key x = i)) := by
        simp [List.filter_cons, hk]
      rw [hfc]
      have hset : dictGet? (dictSet d0 (key r) (val r)) i = dictGet? d0 i := by
        rw [dictGet?_dictSet, if_neg (fun hh : i = key r => hk hh.symm)]
      rw [hset]

theorem foldl_dictSet_nodup {ρ β : Type} (key : ρ → PyStr) (val : ρ → β) :
    ∀ (rows : List ρ) (d0 : Dict PyStr β), (dictKeys d0).Nodup →
      (dictKeys (rows.foldl (fun d r => dictSet d (key r) (val r)) d0)).Nodup := by
  intro rows
  induction rows with
  | nil => intro d0 h; exact h
  | cons r rest ih =>
    intro d0 h
    exact ih (dictSet d0 (key r) (val r)) (nodup_dictKeys_dictSet d0 (key r) (val r) h)

theorem extract_reactions_fold_ok_lookup (genes : List GeneRow) :
    ∀ (rows : List ReactionRow) (d0 d : Dict PyStr Reaction),
      rows.foldlM (extractReactionsStep genes) d0 = .ok d →
      ∀ i, match (rows.filter (fun r => decide (r.identifier = i))).getLast? with
        | none => dictGet? d i = dictGet? d0 i
        | some r => ∃ rec,
            extract_reaction r (find (fun g => g.reaction == r.identifier) genes) = .ok rec ∧
            dictGet? d i = some rec := by
  intro rows
  induction rows with
  | nil =>
    intro d0 d h i
    simp only [List.foldlM_nil, pure, Except.pure, Except.ok.injEq] at h
    subst h
    simp
  | cons r rest ih =>
    intro d0 d h i
    rw [List.foldlM_cons] at h
    cases hstep : extractReactionsStep genes d0 r with
    | error e =>
      rw [hstep] at h
      exact Except.noConfusion h
    | ok d1 =>
      rw [hstep] at h
      simp only [Bind.bind, Except.bind] at h
      obtain ⟨rec, hrec, hd1⟩ := extractReactionsStep_ok genes d0 r d1 hstep
      subst hd1
      have hlook := ih (dictSet d0 r.identifier rec) d h i
      by_cases hk : r.identifier = i
      · have hfc : (r :: rest).filter (fun x => decide (x.identifier = i)) =
            r :: rest.filter (fun x => decide (x.identifier = i)) := by
          simp [List.filter_cons, hk]
        rw [hfc]
        cases hfl : (rest.filter (fun x => decide (x.identifier = i))).getLast? with
        | some r' =>
          rw [hfl] at hlook
          simpa [List.getLast?_cons, hfl] using hlook
        | none =>
          rw [hfl] at hlook
          simp only [List.getLast?_cons, hfl, Option.getD_none]
          refine ⟨rec, hrec, ?_⟩
          rw [hlook, dictGet?_dictSet, if_pos hk.symm]
      · have hfc : (r :: rest).filter (fun x => decide (x.identifier = i)) =
            rest.filter (fun x => decide (x.identifier = i)) := by
          simp [List.filter_cons, hk]
        rw [hfc]
        have hset : dictGet? (dictSet d0 r.identifier rec) i = dictGet? d0 i := by
          rw [dictGet?_dictSet, if_neg (fun hh : i = r.identifier => hk hh.symm)]
        cases hfl : (rest.filter (fun x => decide (x.identifier = i))).getLast? with
        | some r' =>
          rw [hfl] at hlook
          exact hlook
        | none =>
          rw [hfl] at hlook
          rw [hlook, hset]

theorem extract_reactions_fold_ok_nodup (genes : List GeneRow) :
    ∀ (rows : List ReactionRow) (d0 d : Dict PyStr Reaction),
      rows.foldlM (extractReactionsStep genes) d0 = .ok d →
      (dictKeys d0).Nodup → (dictKeys d).Nodup := by
  intro rows
  induction rows with
  | nil =>
    intro d0 d h hn
    simp only [List.foldlM_nil, pure, Except.pure, Except.ok.injEq] at h
    subst h
    exact hn
  | cons r rest ih =>
    intro d0 d h hn
    rw [List.foldlM_cons] at h
    cases hstep : extractReactionsStep genes d0 r with
    | error e =>
      rw [hstep] at h
      exact Except.noConfusion h
    | ok d1 =>
      rw [hstep] at h
      simp only [Bind.bind, Except.bind] at h
      obtain ⟨rec, _, hd1⟩ := extractReactionsStep_ok genes d0 r d1 hstep
      subst hd1
      exact ih (dictSet d0 r.identifier rec) d h
        (nodup_dictKeys_dictSet d0 r.identifier rec hn)

/-! Claim C2: equation parsing of `"2 A@c + B@c --> C@c"`. -/

/-- Claim C2 counterexample: parsing the claimed equation does not return
the claimed participant list — the term `B@c` has no coefficient text, so
`float("B@c")` raises `ValueError` and the parse fails. -/
theorem claim_C2_counterexample :
    extract_reaction_participants "2 A@c + B@c --> C@c".toList = .error .valueError ∧
    extract_reaction_participants "2 A@c + B@c --> C@c".toList ≠
      .ok [ { metabolite := "A".toList, compartment := "c".toList, coefficient := 2,
              role := "reactant".toList },
            { metabolite := "B".toList, compartment := "c".toList, coefficient := 1,
              role := "reactant".toList },
            { metabolite := "C".toList, compartment := "c".toList, coefficient := 1,
              role := "product".toList } ] :=
  ⟨by decide, by decide⟩

/-- Claim C2 (amended): with every coefficient written explicitly, the
equation `"2 A@c + 1 B@c --> 1 C@c"` parses to the participant list
`[{A,c,2.0,reactant}, {B,c,1.0,reactant}, {C,c,1.0,product}]` and its
reversibility is `false`; a term with no coefficient text, such as `B@c`
in the claim's original equation, makes `float` raise `ValueError`
instead. -/
theorem claim_C2 :
    extract_reaction_participants "2 A@c + 1 B@c --> 1 C@c".toList =
      .ok [ { metabolite := "A".toList, compartment := "c".toList, coefficient := 2,
              role := "reactant".toList },
            { metabolite := "B".toList, compartment := "c".toList, coefficient := 1,
              role := "reactant".toList },
            { metabolite := "C".toList, compartment := "c".toList, coefficient := 1,
              role := "product".toList } ] ∧
    extract_reaction_reversibility "2 A@c + 1 B@c --> 1 C@c".toList = false :=
  ⟨by decide, by decide⟩

/-! Claim C7: reference parsing. -/

theorem filter_map_reference_spec (key : PyStr) :
    ∀ pieces : List PyStr,
      (pieces.filter (fun pair => pyIn key pair)).map (fun pair => pyReplace key [] pair) =
        reference_parsing_spec key pieces := by
  intro pieces
  induction pieces with
  | nil => rfl
  | cons piece rest ih =>
    by_cases hp : pyIn key piece = true
    · simp [List.filter_cons, hp, reference_parsing_spec, ih]
    · simp [List.filter_cons, hp, reference_parsing_spec, ih]

/-- Claim C7: reference parsing splits the annotation string on the
semicolon, keeps exactly the substrings containing the key token
(contains-match), strips the key token from each, and returns them in
original order as a (possibly empty, never null) list; in particular
parsing `"chebi:15377;kegg:C00001;chebi:1234"` with key `"chebi:"`
returns `["15377", "1234"]`. -/
theorem claim_C7 :
    (∀ key source_reference : PyStr,
        extract_reference_information key source_reference =
          reference_parsing_spec key (pySplit [';'] source_reference)) ∧
    extract_reference_information "chebi:".toList
        "chebi:15377;kegg:C00001;chebi:1234".toList =
      ["15377".toList, "1234".toList] := by
  constructor
  · intro key source_reference
    simp only [extract_reference_information]
    exact filter_map_reference_spec key _
  · decide

/-! Claim C3: a malformed equation aborts the whole extraction run. -/

/-- Claim C3 counterexample: an equation with none of the three
directionality tokens does not raise an error scoped to its own record —
the whole run returns the uncaught `UnboundLocalError`, and the
well-formed sibling `R1` (processed successfully before it) is not part
of any result. -/
theorem claim_C3_counterexample :
    extract_reactions [goodReactionRow, badReactionRow]
      [geneRowFor "R1".toList, geneRowFor "R2".toList] = .error .unboundLocal := by
  decide

/-- Claim C3 (amended): an equation string containing none of the three
directionality tokens makes `extract_reaction_equation_raw_participants_by_role`
read the unassigned local `reactants_side`, raising `UnboundLocalError`;
the error is not caught, so the whole extraction run aborts with it and
no sibling reaction — earlier or later — appears in any result. -/
theorem claim_C3 (pre : List ReactionRow) (r : ReactionRow) (post : List ReactionRow)
    (genes : List GeneRow) (d0 : Dict PyStr Reaction)
    (h1 : pyIn "<==>".toList r.equation = false)
    (h2 : pyIn "-->".toList r.equation = false)
    (h3 : pyIn "<--".toList r.equation = false)
    (hpre : extract_reactions pre genes = .ok d0) :
    extract_reactions (pre ++ r :: post) genes = .error .unboundLocal := by
  rw [extract_reactions_eq_foldlM] at hpre ⊢
  rw [List.foldlM_append, hpre]
  show (r :: post).foldlM (extractReactionsStep genes) d0 = .error .unboundLocal
  rw [List.foldlM_cons]
  have herr := extract_reaction_error_of_participants r
    (find (fun g => g.reaction == r.identifier) genes) .unboundLocal
    (participants_error_of_no_token r.equation h1 h2 h3)
  have hstep : extractReactionsStep genes d0 r = .error .unboundLocal := by
    simp only [extractReactionsStep]
    rw [herr]
    rfl
  rw [hstep]
  rfl

/-- Claim C3 witness: the amended theorem applied to the concrete run
`[badReactionRow, goodReactionRow]`. -/
theorem claim_C3_witness :
    pyIn "<==>".toList badReactionRow.equation = false ∧
    pyIn "-->".toList badReactionRow.equation = false ∧
    pyIn "<--".toList badReactionRow.equation = false ∧
    extract_reactions [] [geneRowFor "R2".toList] = .ok [] ∧
    extract_reactions ([] ++ badReactionRow :: [goodReactionRow])
      [geneRowFor "R2".toList] = .error .unboundLocal :=
  ⟨by decide, by decide, by decide, rfl,
    claim_C3 [] badReactionRow [goodReactionRow] [geneRowFor "R2".toList] []
      (by decide) (by decide) (by decide) rfl⟩

/-! Claim C4: gene linkage. -/

/-- Claim C4 counterexample: a reaction with no matching gene row does
not get a per-reaction `MissingReferenceRecordError` — `utility.find`
returns `None`, subscripting it raises `TypeError`, and the whole run
(including the well-formed sibling `R1`) aborts. -/
theorem claim_C4_counterexample :
    extract_reactions [goodReactionRow, orphanReactionRow]
      [geneRowFor "R1".toList] = .error .typeError := by
  decide

/-- Claim C4 (amended): every reaction is matched to its gene-annotation
record by exact equality of the reaction identifier (the first such
record); when no gene record matches, `utility.find` returns `None` and
`extract_reaction_genes` raises an uncaught `TypeError`, which aborts the
whole extraction run — neither a per-reaction error nor a silent empty
gene list. -/
theorem claim_C4 (pre : List ReactionRow) (r : ReactionRow) (post : List ReactionRow)
    (genes : List GeneRow) (d0 : Dict PyStr Reaction) (ps : List Participant)
    (hnomatch : ∀ g ∈ genes, (g.reaction == r.identifier) = false)
    (hparse : extract_reaction_participants r.equation = .ok ps)
    (hpre : extract_reactions pre genes = .ok d0) :
    extract_reactions (pre ++ r :: post) genes = .error .typeError ∧
    (∀ (genes2 : List GeneRow) (rid : PyStr) (g : GeneRow),
        find (fun gene_record => gene_record.reaction == rid) genes2 = some g →
        g.reaction = rid) := by
  constructor
  · rw [extract_reactions_eq_foldlM] at hpre ⊢
    rw [List.foldlM_append, hpre]
    show (r :: post).foldlM (extractReactionsStep genes) d0 = .error .typeError
    rw [List.foldlM_cons]
    have hfind : find (fun g => g.reaction == r.identifier) genes = none :=
      find_eq_none_of_all _ genes hnomatch
    have hstep : extractReactionsStep genes d0 r = .error .typeError := by
      simp only [extractReactionsStep]
      rw [hfind, extract_reaction_error_of_no_gene r ps hparse]
      rfl
    rw [hstep]
    rfl
  · intro genes2 rid g hg
    have hsat := find_some_sat (fun gene_record => gene_record.reaction == rid) genes2 g hg
    simpa using hsat

/-- Claim C4 witness: the amended theorem applied to the concrete run
`[orphanReactionRow]` with a gene table that only covers `R1`. -/
theorem claim_C4_witness :
    (∀ g ∈ [geneRowFor "R1".toList], (g.reaction == orphanReactionRow.identifier) = false) ∧
    extract_reaction_participants orphanReactionRow.equation =
      .ok [ { metabolite := "A".toList, compartment := "c".toList, coefficient := 1,
              role := "reactant".toList },
            { metabolite := "B".toList, compartment := "c".toList, coefficient := 1,
              role := "product".toList } ] ∧
    extract_reactions [] [geneRowFor "R1".toList] = .ok [] ∧
    extract_reactions ([] ++ orphanReactionRow :: []) [geneRowFor "R1".toList] =
      .error .typeError :=
  ⟨by decide, by decide, rfl,
    (claim_C4 [] orphanReactionRow [] [geneRowFor "R1".toList] []
      [ { metabolite := "A".toList, compartment := "c".toList, coefficient := 1,
          role := "reactant".toList },
        { metabolite := "B".toList, compartment := "c".toList, coefficient := 1,
          role := "product".toList } ]
      (by decide) (by decide) rfl).1⟩

/-! Claim C10: extraction builds identifier-keyed maps, last row wins. -/

/-- Claim C10: for every list of source records, the extraction of
compartments, metabolites, and reactions returns a map keyed by
identifier with exactly one record per distinct identifier (the key lists
are duplicate-free); when several rows share an identifier, the record of
the last such row silently overwrites the earlier ones (lookup returns
the record built from the last matching row), and an identifier with no
row is absent. -/
theorem claim_C10 (crows : List CompartmentRow) (mrows : List MetaboliteRow)
    (rrows : List ReactionRow) (genes : List GeneRow) (d : Dict PyStr Reaction) (i : PyStr)
    (hok : extract_reactions rrows genes = .ok d) :
    (dictKeys (extract_compartments crows)).Nodup ∧
    dictGet? (extract_compartments crows) i =
      ((crows.filter (fun r => decide (r.identifier = i))).getLast?.map
        (fun r => ({ identifier := r.identifier, name := r.name } : Compartment))) ∧
    (dictKeys (extract_metabolites mrows)).Nodup ∧
    dictGet? (extract_metabolites mrows) i =
      ((mrows.filter (fun r => decide (r.identifier = i))).getLast?.map
        (fun r => extract_metabolite r)) ∧
    (dictKeys d).Nodup ∧
    (match (rrows.filter (fun r => decide (r.identifier = i))).getLast? with
      | none => dictGet? d i = none
      | some r => ∃ rec,
          extract_reaction r (find (fun g => g.reaction == r.identifier) genes) = .ok rec ∧
          dictGet? d i = some rec) := by
  rw [extract_reactions_eq_foldlM] at hok
  refine ⟨?_, ?_, ?_, ?_, ?_, ?_⟩
  · exact foldl_dictSet_nodup (fun r => r.identifier)
      (fun r => ({ identifier := r.identifier, name := r.name } : Compartment)) crows []
      (by simp [dictKeys])
  · have h := foldl_dictSet_getLast (fun r => r.identifier)
      (fun r => ({ identifier := r.identifier, name := r.name } : Compartment)) crows [] i
    simp only [dictGet?] at h
    rw [show dictGet? (extract_compartments crows) i =
      dictGet? (crows.foldl (fun d r => dictSet d r.identifier
        ({ identifier := r.identifier, name := r.name } : Compartment)) []) i from rfl]
    rw [h]
    cases (crows.filter (fun r => decide (r.identifier = i))).getLast? <;> rfl
  · exact foldl_dictSet_nodup (fun r => r.identifier)
      (fun r => extract_metabolite r) mrows [] (by simp [dictKeys])
  · have h := foldl_dictSet_getLast (fun r => r.identifier)
      (fun r => extract_metabolite r) mrows [] i
    simp only [dictGet?] at h
    rw [show dictGet? (extract_metabolites mrows) i =
      dictGet? (mrows.foldl (fun d r => dictSet d r.identifier (extract_metabolite r)) []) i
      from rfl]
    rw [h]
    cases (mrows.filter (fun r => decide (r.identifier = i))).getLast? <;> rfl
  · exact extract_reactions_fold_ok_nodup genes rrows [] d hok (by simp [dictKeys])
  · have h := extract_reactions_fold_ok_lookup genes rrows [] d hok i
    cases hfl : (rrows.filter (fun r => decide (r.identifier = i))).getLast? with
    | none =>
      rw [hfl] at h
      exact h
    | some r =>
      rw [hfl] at h
      exact h

/-- Claim C10 witness: two compartment rows sharing identifier `c1` —
the lookup yields the second row's record. -/
theorem claim_C10_witness :
    extract_reactions [] ([] : List GeneRow) = .ok ([] : Dict PyStr Reaction) ∧
    dictGet? (extract_compartments
        [ { identifier := "c1".toList, name := "first".toList, source := [] },
          { identifier := "c1".toList, name := "second".toList, source := [] } ])
      "c1".toList =
      some { identifier := "c1".toList, name := "second".toList } := by
  refine ⟨rfl, ?_⟩
  have h := (claim_C10
    [ { identifier := "c1".toList, name := "first".toList, source := [] },
      { identifier := "c1".toList, name := "second".toList, source := [] } ]
    [] [] [] [] "c1".toList rfl).2.1
  exact h.trans (by decide)

/-! Claim C6: the reverse-only token swaps the textual sides. -/

theorem participant_of_wf_term (t : RawTerm) (role : PyStr) (hwf : t.wf) :
    extract_reaction_participant_by_role t.toRaw role = .ok (participantOfTerm role t) := by
  obtain ⟨hc, hm, hk, hv⟩ := hwf
  have htr : t.toRaw = t.coef ++ ' ' :: (t.met ++ '@' :: t.comp) := by
    simp [RawTerm.toRaw]
  have hsp : pySplit [' '] t.toRaw = [t.coef, t.met ++ '@' :: t.comp] := by
    rw [htr]
    refine pySplit_singleton_pair ' ' t.coef (t.met ++ '@' :: t.comp) hc ?_
    intro x hx
    rcases List.mem_append.mp hx with hx1 | hx2
    · exact (hm x hx1).1
    · rcases List.mem_cons.mp hx2 with rfl | hx3
      · decide
      · exact (hk x hx3).1
  have hmc : pySplit ['@'] (t.met ++ '@' :: t.comp) = [t.met, t.comp] :=
    pySplit_singleton_pair '@' t.met t.comp (fun x hx => (hm x hx).2) (fun x hx => (hk x hx).2)
  simp only [extract_reaction_participant_by_role]
  rw [hsp]
  simp only [pyIndex, Bind.bind, Except.bind, pyFloatE, hv]
  rw [hmc]
  simp [pyIndex, participantOfTerm, pure, Except.pure]

theorem participants_by_role_of_wf (role : PyStr) :
    ∀ ts : List RawTerm, (∀ t ∈ ts, t.wf) →
      extract_reaction_participants_by_role (ts.map RawTerm.toRaw) role =
        .ok (ts.map (participantOfTerm role)) := by
  intro ts
  induction ts with
  | nil => intro _; rfl
  | cons t rest ih =>
    intro h
    simp only [List.map_cons, extract_reaction_participants_by_role]
    rw [participant_of_wf_term t role (h t (by simp))]
    simp only [Bind.bind, Except.bind]
    rw [ih (fun x hx => h x (by simp [hx]))]
    rfl

/-- Claim C6: for every equation string that contains the reverse-only
token `" <-- "` and neither the bidirectional nor the forward-only token,
whose two textual sides split on `" + "` into terms of the form
`<coefficient> <metabolite>@<compartment>`, the parser assigns the
textual right-hand side's terms as reactants and the textual left-hand
side's terms as products, the final participant list being the reactants
(in their side's left-to-right order) followed by the products (in their
side's left-to-right order). -/
theorem claim_C6 (equation L R : PyStr) (lts rts : List RawTerm)
    (h1 : pyIn "<==>".toList equation = false)
    (h2 : pyIn "-->".toList equation = false)
    (hsplit : pySplit " <-- ".toList equation = [L, R])
    (hL : pySplit " + ".toList L = lts.map RawTerm.toRaw)
    (hR : pySplit " + ".toList R = rts.map RawTerm.toRaw)
    (hwfl : ∀ t ∈ lts, t.wf) (hwfr : ∀ t ∈ rts, t.wf) :
    extract_reaction_participants equation =
      .ok (rts.map (participantOfTerm "reactant".toList) ++
           lts.map (participantOfTerm "product".toList)) := by
  have hsome : ∃ a b, splitFirst " <-- ".toList equation = some (a, b) := by
    cases hsf : splitFirst " <-- ".toList equation with
    | none => rw [pySplit_of_none _ _ hsf] at hsplit; exact absurd hsplit (by simp)
    | some p =>
      obtain ⟨x, y⟩ := p
      exact ⟨x, y, rfl⟩
  obtain ⟨a, b, hsf⟩ := hsome
  have hinfix : (" <-- ".toList : PyStr) <:+: equation := by
    obtain ⟨heq, _⟩ := splitFirst_eq _ equation a b hsf
    exact ⟨a, b, heq.symm⟩
  have hin : pyIn "<--".toList equation = true := by
    apply (pyIn_infix_iff _ _).mpr
    have hsub : ("<--".toList : PyStr) <:+: " <-- ".toList := ⟨[' '], [' '], by decide⟩
    exact hsub.trans hinfix
  have h1' : pyIn ['<', '=', '=', '>'] equation = false := h1
  have h2' : pyIn ['-', '-', '>'] equation = false := h2
  have hin' : pyIn ['<', '-', '-'] equation = true := hin
  have hsplit' : pySplit [' ', '<', '-', '-', ' '] equation = [L, R] := hsplit
  have hraw : extract_reaction_equation_raw_participants_by_role equation =
      .ok { reactants := pySplit " + ".toList R, products := pySplit " + ".toList L } := by
    simp [extract_reaction_equation_raw_participants_by_role, h1', h2', hin', hsplit',
      pyIndex, Bind.bind, Except.bind, pure, Except.pure]
  simp only [extract_reaction_participants]
  rw [hraw]
  simp only [Bind.bind, Except.bind]
  rw [hR, participants_by_role_of_wf _ rts hwfr]
  rw [hL, participants_by_role_of_wf _ lts hwfl]
  rfl

/-- Claim C6 witness: the theorem applied to `"2 X@c <-- 3 Y@m"`. -/
theorem claim_C6_witness :
    pyIn "<==>".toList "2 X@c <-- 3 Y@m".toList = false ∧
    pySplit " <-- ".toList "2 X@c <-- 3 Y@m".toList =
      ["2 X@c".toList, "3 Y@m".toList] ∧
    RawTerm.wf { coef := "2".toList, met := "X".toList, comp := "c".toList, val := 2 } ∧
    extract_reaction_participants "2 X@c <-- 3 Y@m".toList =
      .ok [ { metabolite := "Y".toList, compartment := "m".toList, coefficient := 3,
              role := "reactant".toList },
            { metabolite := "X".toList, compartment := "c".toList, coefficient := 2,
              role := "product".toList } ] := by
  refine ⟨by decide, by decide, by decide, ?_⟩
  exact claim_C6 "2 X@c <-- 3 Y@m".toList "2 X@c".toList "3 Y@m".toList
    [{ coef := "2".toList, met := "X".toList, comp := "c".toList, val := 2 }]
    [{ coef := "3".toList, met := "Y".toList, comp := "m".toList, val := 3 }]
    (by decide) (by decide) (by decide) (by decide) (by decide) (by decide) (by decide)

/-! Claim C5: the boundary-metabolite rewrite. -/

theorem pySubBoundaryF_fuel :
    ∀ n m (s : PyStr), s.length ≤ n → s.length ≤ m → pySubBoundaryF n s = pySubBoundaryF m s := by
  intro n
  induction n with
  | zero =>
    intro m s hn _
    have : s = [] := List.length_eq_zero.mp (Nat.le_zero.mp hn)
    subst this
    cases m <;> rfl
  | succ n ih =>
    intro m s hn hm
    cases m with
    | zero =>
      have : s = [] := List.length_eq_zero.mp (Nat.le_zero.mp hm)
      subst this
      rfl
    | succ m =>
      cases s with
      | nil => rfl
      | cons c t =>
        simp only [pySubBoundaryF]
        by_cases hb : isBoundaryMatch (c :: t) = true
        · rw [if_pos hb, if_pos hb]
          have hd : ((c :: t).drop 11).length ≤ t.length := by
            simp only [List.length_drop, List.length_cons]
            omega
          rw [ih m ((c :: t).drop 11) (by simp at hn; omega) (by simp at hm; omega)]
        · rw [if_neg hb, if_neg hb]
          rw [ih m t (by simp at hn; omega) (by simp at hm; omega)]

theorem pySubBoundary_cons_match (c : Char) (t : PyStr) (h : isBoundaryMatch (c :: t) = true) :
    pySubBoundary (c :: t) = '_' :: 'b' :: pySubBoundary ((c :: t).drop 11) := by
  unfold pySubBoundary
  simp only [List.length_cons, pySubBoundaryF, h, if_pos]
  have hd : ((c :: t).drop 11).length ≤ t.length := by
    simp only [List.length_drop, List.length_cons]
    omega
  rw [pySubBoundaryF_fuel t.length ((c :: t).drop 11).length ((c :: t).drop 11) hd (le_refl _)]

theorem pySubBoundary_cons_nomatch (c : Char) (t : PyStr)
    (h : isBoundaryMatch (c :: t) = false) :
    pySubBoundary (c :: t) = c :: pySubBoundary t := by
  unfold pySubBoundary
  simp only [List.length_cons, pySubBoundaryF, h]
  rfl

theorem boundaryTail_isPrefix_extend (l : Char) :
    ∀ t3 : PyStr, boundaryTail.isPrefixOf (t3 ++ '_' :: l :: boundaryTail) = true →
      boundaryTail.isPrefixOf t3 = true := by
  intro t3 h
  rcases t3 with _ | ⟨a1, _ | ⟨a2, _ | ⟨a3, _ | ⟨a4, _ | ⟨a5, _ | ⟨a6, _ | ⟨a7, _ | ⟨a8,
    _ | ⟨a9, t10⟩⟩⟩⟩⟩⟩⟩⟩⟩ <;>
    simp_all [boundaryTail, List.isPrefixOf, boundaryLetters] <;>
    assumption

theorem isBoundaryMatch_extend (l : Char) :
    ∀ t : PyStr, t ≠ [] → isBoundaryMatch (t ++ '_' :: l :: boundaryTail) = true →
      isBoundaryMatch t = true := by
  intro t hne h
  rcases t with _ | ⟨x, _ | ⟨y, t3⟩⟩
  · exact absurd rfl hne
  · simp_all [isBoundaryMatch, boundaryLetters, boundaryTail, List.isPrefixOf]
  · simp only [List.cons_append, isBoundaryMatch, Bool.and_eq_true] at h ⊢
    obtain ⟨⟨hx, hy⟩, hpre⟩ := h
    exact ⟨⟨hx, hy⟩, boundaryTail_isPrefix_extend l t3 hpre⟩

theorem pySubBoundary_append (l : Char) (hl : boundaryLetters.contains l = true) :
    ∀ base : PyStr, noBoundaryPat base = true →
      pySubBoundary (base ++ '_' :: l :: boundaryTail) = base ++ "_b".toList := by
  intro base
  induction base with
  | nil =>
    intro _
    rw [List.nil_append]
    have hm : isBoundaryMatch ('_' :: l :: boundaryTail) = true := by
      have h3 : boundaryTail.isPrefixOf boundaryTail = true :=
        List.isPrefixOf_iff_prefix.mpr (List.prefix_refl _)
      simp only [isBoundaryMatch]
      rw [hl, h3]
      decide
    rw [pySubBoundary_cons_match '_' (l :: boundaryTail) hm]
    rfl
  | cons c t ih =>
    intro hnp
    simp only [noBoundaryPat, Bool.and_eq_true, Bool.not_eq_true'] at hnp
    obtain ⟨hcm, hnp'⟩ := hnp
    rw [List.cons_append]
    by_cases hm : isBoundaryMatch (c :: (t ++ '_' :: l :: boundaryTail)) = true
    · exfalso
      have := isBoundaryMatch_extend l (c :: t) (by simp) (by
        rw [List.cons_append]; exact hm)
      rw [this] at hcm
      exact Bool.noConfusion hcm
    · rw [pySubBoundary_cons_nomatch c _ (by simpa using hm)]
      rw [ih hnp']
      rfl

theorem pyIn_boundary_of_pattern (base : PyStr) (l : Char) :
    pyIn "boundary".toList (base ++ '_' :: l :: boundaryTail) = true := by
  apply (pyIn_infix_iff _ _).mpr
  refine ⟨base ++ ['_', l, '_'], [], ?_⟩
  simp [boundaryTail]

/-- Claim C5 counterexample: the id `a_e_boundary_e_boundary` matches the
pattern with base `a_e_boundary` and letter `e`, but the rewrite replaces
both occurrences of the pattern and produces `a_b_b`, not
`a_e_boundary_b`. -/
theorem claim_C5_counterexample :
    "a_e_boundary_e_boundary".toList = "a_e_boundary".toList ++ '_' :: 'e' :: boundaryTail ∧
    (changeModelBoundary
      { compartments := [],
        species := [ { id := "a_e_boundary_e_boundary".toList, compartment := "e".toList,
                       abouts := [] } ],
        reactions := [] }).species =
      [ { id := "a_b_b".toList, compartment := "b".toList, abouts := [] } ] ∧
    "a_b_b".toList ≠ "a_e_boundary".toList ++ "_b".toList :=
  ⟨by decide, by decide, by decide⟩

/-- Claim C5 (amended): in the boundary-rewrite pass, every metabolite
whose id is `<base>_<letter>_boundary` with `letter` one of
`e,c,i,g,l,m,n,r,x` and `base` itself free of the pattern
`_[eciglmnrx]_boundary` has its id rewritten to `<base>_b` and its
compartment attribute set to the boundary compartment id `b`, and in the
same pass the identical regex rewrite is applied to every reaction
participant's species reference of that form (a base containing the
pattern is rewritten at every occurrence instead, as the counterexample
shows). -/
theorem claim_C5 (m : SBMLModel) (base : PyStr) (l : Char)
    (hl : boundaryLetters.contains l = true) (hbase : noBoundaryPat base = true) :
    (∀ j sp, m.species.get? j = some sp → sp.id = base ++ '_' :: l :: boundaryTail →
      ∃ sp', (changeModelBoundary m).species.get? j = some sp' ∧
        sp'.id = base ++ "_b".toList ∧ sp'.compartment = "b".toList ∧
        sp'.abouts = sp.abouts) ∧
    (∀ j k r ref, m.reactions.get? j = some r → r.speciesRefs.get? k = some ref →
      ref = base ++ '_' :: l :: boundaryTail →
      ∃ r', (changeModelBoundary m).reactions.get? j = some r' ∧
        r'.speciesRefs.get? k = some (base ++ "_b".toList)) := by
  constructor
  · intro j sp hj hid
    refine ⟨{ sp with id := pySubBoundary sp.id, compartment := "b".toList }, ?_, ?_, rfl, rfl⟩
    · have hmap : (changeModelBoundary m).species.get? j =
          ((m.species.get? j).map (fun metabolite =>
            if pyIn "boundary".toList metabolite.id then
              { id := pySubBoundary metabolite.id, compartment := "b".toList,
                abouts := metabolite.abouts }
            else metabolite)) := by
        simp only [changeModelBoundary]
        exact List.get?_map _ _ _
      rw [hmap, hj]
      have hb : pyIn ['b', 'o', 'u', 'n', 'd', 'a', 'r', 'y'] sp.id = true := by
        rw [hid]
        exact pyIn_boundary_of_pattern base l
      simp [hb]
    · show pySubBoundary sp.id = base ++ "_b".toList
      rw [hid]
      exact pySubBoundary_append l hl base hbase
  · intro j k r ref hj hk href
    refine ⟨{ speciesRefs := r.speciesRefs.map (fun species =>
        if pyIn "boundary".toList species then pySubBoundary species else species) }, ?_, ?_⟩
    · have hmap : (changeModelBoundary m).reactions.get? j =
          ((m.reactions.get? j).map (fun reaction =>
            ({ speciesRefs := reaction.speciesRefs.map (fun species =>
                if pyIn "boundary".toList species then pySubBoundary species
                else species) } : SBMLReaction))) := by
        simp only [changeModelBoundary]
        exact List.get?_map _ _ _
      rw [hmap, hj]
      rfl
    · show ((r.speciesRefs.map (fun species =>
        if pyIn "boundary".toList species then pySubBoundary species else species)).get? k) =
        some (base ++ "_b".toList)
      rw [List.get?_map, hk]
      have hb : pyIn "boundary".toList ref = true := by
        rw [href]; exact pyIn_boundary_of_pattern base l
      simp only [Option.map_some', Option.some.injEq]
      rw [if_pos hb, href]
      exact pySubBoundary_append l hl base hbase

/-- Claim C5 witness: the theorem applied to a model holding the
metabolite `glc_e_boundary`, which becomes `glc_b` in compartment `b`. -/
theorem claim_C5_witness :
    boundaryLetters.contains 'e' = true ∧
    noBoundaryPat "glc".toList = true ∧
    (∃ sp', (changeModelBoundary
        { compartments := [],
          species := [ { id := "glc_e_boundary".toList, compartment := "e".toList,
                         abouts := [] } ],
          reactions := [] }).species.get? 0 = some sp' ∧
      sp'.id = "glc".toList ++ "_b".toList ∧ sp'.compartment = "b".toList ∧
      sp'.abouts = ([] : List PyStr)) := by
  refine ⟨by decide, by decide, ?_⟩
  exact (claim_C5
    { compartments := [],
      species := [ { id := "glc_e_boundary".toList, compartment := "e".toList,
                     abouts := [] } ],
      reactions := [] }
    "glc".toList 'e' (by decide) (by decide)).1 0
    { id := "glc_e_boundary".toList, compartment := "e".toList, abouts := [] }
    rfl (by decide)

/-! Claim C8: idempotence of prefix stripping. -/

theorem reSubStart_M_idem (s : PyStr) (h : ("M_M_".toList).isPrefixOf s = false) :
    reSubStart "M_".toList [] (reSubStart "M_".toList [] s) =
      reSubStart "M_".toList [] s := by
  have hnp : ¬ ((['M', '_', 'M', '_'] : PyStr) <+: s) := by
    intro hc
    have hb := List.isPrefixOf_iff_prefix.mpr hc
    rw [show (['M', '_', 'M', '_'] : PyStr) = "M_M_".toList from rfl] at hb
    rw [hb] at h
    exact Bool.noConfusion h
  by_cases hp : ((['M', '_'] : PyStr) <+: s)
  · obtain ⟨rest, hrest⟩ := hp
    subst hrest
    have hpre : ("M_".toList : PyStr).isPrefixOf (['M', '_'] ++ rest) = true :=
      List.isPrefixOf_iff_prefix.mpr (List.prefix_append _ _)
    have h1 : reSubStart "M_".toList [] (['M', '_'] ++ rest) = rest := by
      unfold reSubStart
      rw [if_pos hpre, List.nil_append]
      exact List.drop_left _ _
    rw [h1]
    have h2 : ¬ ((['M', '_'] : PyStr) <+: rest) := by
      intro hc
      obtain ⟨r2, hr2⟩ := hc
      apply hnp
      rw [← hr2]
      exact ⟨r2, by simp⟩
    unfold reSubStart
    rw [if_neg (by simp [h2])]
  · have h0 : reSubStart "M_".toList [] s = s := by
      unfold reSubStart
      rw [if_neg (by simp [hp])]
    rw [h0, h0]

theorem reSubStart_hash_idem (ab : PyStr) (h : ("#M_M_".toList).isPrefixOf ab = false) :
    reSubStart "#M_".toList ['#'] (reSubStart "#M_".toList ['#'] ab) =
      reSubStart "#M_".toList ['#'] ab := by
  have hnp : ¬ ((['#', 'M', '_', 'M', '_'] : PyStr) <+: ab) := by
    intro hc
    have hb := List.isPrefixOf_iff_prefix.mpr hc
    rw [show (['#', 'M', '_', 'M', '_'] : PyStr) = "#M_M_".toList from rfl] at hb
    rw [hb] at h
    exact Bool.noConfusion h
  by_cases hp : ((['#', 'M', '_'] : PyStr) <+: ab)
  · obtain ⟨rest, hrest⟩ := hp
    subst hrest
    have hpre : ("#M_".toList : PyStr).isPrefixOf (['#', 'M', '_'] ++ rest) = true :=
      List.isPrefixOf_iff_prefix.mpr (List.prefix_append _ _)
    have h1 : reSubStart "#M_".toList ['#'] (['#', 'M', '_'] ++ rest) = '#' :: rest := by
      unfold reSubStart
      rw [if_pos hpre]
      rw [show ("#M_".toList : PyStr).length = 3 from rfl]
      rfl
    rw [h1]
    have h2 : ¬ ((['M', '_'] : PyStr) <+: rest) := by
      intro hc
      obtain ⟨r2, hr2⟩ := hc
      apply hnp
      rw [← hr2]
      exact ⟨r2, by simp⟩
    unfold reSubStart
    rw [if_neg (by simp [h2])]
  · have h0 : reSubStart "#M_".toList ['#'] ab = ab := by
      unfold reSubStart
      rw [if_neg (by simp [hp])]
    rw [h0, h0]

/-- Claim C8 counterexample: on a model with species id `M_M_x` the first
stripping pass yields `M_x` and the second `x`, so stripping twice does
not equal stripping once — the anchored `re.sub(r"^M_", ...)` removes one
prefix layer per pass. -/
theorem claim_C8_counterexample :
    removeModelIdentifierPrefix (removeModelIdentifierPrefix
      { compartments := [],
        species := [ { id := "M_M_x".toList, compartment := "c".toList, abouts := [] } ],
        reactions := [] }) ≠
    removeModelIdentifierPrefix
      { compartments := [],
        species := [ { id := "M_M_x".toList, compartment := "c".toList, abouts := [] } ],
        reactions := [] } := by
  decide

/-- Claim C8 (amended): the prefix-stripping pass is idempotent on every
model description in which no species id or reaction species reference
starts with the doubled prefix `M_M_` and no description `rdf:about`
attribute starts with `#M_M_`: applying the pass twice then yields
exactly the same model (same metabolite ids, same reaction species
references, same annotation URI attributes) as applying it once.  On a
doubled prefix the pass strips one layer per application, as the
counterexample shows. -/
theorem claim_C8 (m : SBMLModel)
    (hsp : ∀ sp ∈ m.species, ("M_M_".toList).isPrefixOf sp.id = false ∧
        ∀ ab ∈ sp.abouts, ("#M_M_".toList).isPrefixOf ab = false)
    (hrx : ∀ r ∈ m.reactions, ∀ ref ∈ r.speciesRefs,
        ("M_M_".toList).isPrefixOf ref = false) :
    removeModelIdentifierPrefix (removeModelIdentifierPrefix m) =
      removeModelIdentifierPrefix m := by
  simp only [removeModelIdentifierPrefix, SBMLModel.mk.injEq, List.map_map]
  refine ⟨by trivial, ?_, ?_⟩
  · apply List.map_congr_left
    intro sp hsp'
    obtain ⟨hid, hab⟩ := hsp sp hsp'
    simp only [Function.comp_apply]
    rw [SBMLSpecies.mk.injEq]
    refine ⟨?_, by trivial, ?_⟩
    · exact reSubStart_M_idem sp.id hid
    · rw [List.map_map]
      apply List.map_congr_left
      intro ab hab'
      exact reSubStart_hash_idem ab (hab ab hab')
  · apply List.map_congr_left
    intro r hr
    simp only [Function.comp_apply]
    rw [SBMLReaction.mk.injEq, List.map_map]
    apply List.map_congr_left
    intro ref href
    exact reSubStart_M_idem ref (hrx r hr ref href)

/-- Claim C8 witness: the amended theorem applied to a model with one
normally prefixed species, one annotation, and one species reference. -/
theorem claim_C8_witness :
    (∀ sp ∈ [( { id := "M_glc_e".toList, compartment := "e".toList,
                 abouts := ["#M_glc_e".toList] } : SBMLSpecies )],
      ("M_M_".toList).isPrefixOf sp.id = false ∧
        ∀ ab ∈ sp.abouts, ("#M_M_".toList).isPrefixOf ab = false) ∧
    removeModelIdentifierPrefix (removeModelIdentifierPrefix
      { compartments := [],
        species := [ { id := "M_glc_e".toList, compartment := "e".toList,
                       abouts := ["#M_glc_e".toList] } ],
        reactions := [ { speciesRefs := ["M_glc_e".toList] } ] }) =
    removeModelIdentifierPrefix
      { compartments := [],
        species := [ { id := "M_glc_e".toList, compartment := "e".toList,
                       abouts := ["#M_glc_e".toList] } ],
        reactions := [ { speciesRefs := ["M_glc_e".toList] } ] } := by
  refine ⟨by decide, ?_⟩
  exact claim_C8
    { compartments := [],
      species := [ { id := "M_glc_e".toList, compartment := "e".toList,
                     abouts := ["#M_glc_e".toList] } ],
      reactions := [ { speciesRefs := ["M_glc_e".toList] } ] }
    (by decide) (by decide)

/-! Claim C1: referential integrity after `remove_metabolites`. -/

theorem remove_metabolites_cons (row : RemovalRow) (rest : List RemovalRow)
    (mets : Dict PyStr Metabolite) (rxns : Dict PyStr Reaction) :
    remove_metabolites (row :: rest) mets rxns =
      remove_metabolites rest (remove_metabolites_row (mets, rxns) row).1
        (remove_metabolites_row (mets, rxns) row).2 := rfl

theorem remove_metabolites_row_fst (mets : Dict PyStr Metabolite)
    (rxns : Dict PyStr Reaction) (row : RemovalRow) :
    (remove_metabolites_row (mets, rxns) row).1 =
      if dictContains mets row.removal_identifier then
        dictDel mets row.removal_identifier
      else mets := rfl

theorem remove_metabolites_row_snd (mets : Dict PyStr Metabolite)
    (rxns : Dict PyStr Reaction) (row : RemovalRow) :
    (remove_metabolites_row (mets, rxns) row).2 =
      rxns.map (fun kv => (kv.1, rewriteReaction row kv.2)) := rfl

theorem contains_step_of_ne (mets : Dict PyStr Metabolite) (row : RemovalRow) (x : PyStr)
    (hx : dictContains mets x = true) (hne : x ≠ row.removal_identifier) :
    dictContains (remove_metabolites_row (mets, rxns) row).1 x = true := by
  rw [remove_metabolites_row_fst]
  by_cases hc : dictContains mets row.removal_identifier = true
  · rw [if_pos hc]
    simp only [dictContains, dictGet?_dictDel, if_neg hne]
    exact hx
  · rw [if_neg hc]
    exact hx

theorem remove_metabolites_contains_mono :
    ∀ (table : List RemovalRow) (mets : Dict PyStr Metabolite) (rxns : Dict PyStr Reaction) x,
      dictContains (remove_metabolites table mets rxns).1 x = true →
      dictContains mets x = true := by
  intro table
  induction table with
  | nil => intro mets rxns x h; exact h
  | cons row rest ih =>
    intro mets rxns x h
    rw [remove_metabolites_cons] at h
    have hx := ih _ _ x h
    rw [remove_metabolites_row_fst] at hx
    by_cases hc : dictContains mets row.removal_identifier = true
    · rw [if_pos hc] at hx
      simp only [dictContains, dictGet?_dictDel] at hx
      by_cases hxe : x = row.removal_identifier
      · rw [if_pos hxe] at hx
        exact absurd hx (by simp)
      · rw [if_neg hxe] at hx
        exact hx
    · rw [if_neg hc] at hx
      exact hx

theorem remove_metabolites_absent :
    ∀ (table : List RemovalRow) (mets : Dict PyStr Metabolite) (rxns : Dict PyStr Reaction) x,
      dictContains mets x = false →
      dictContains (remove_metabolites table mets rxns).1 x = false := by
  intro table mets rxns x h
  rcases hres : dictContains (remove_metabolites table mets rxns).1 x with _ | _
  · rfl
  · rw [remove_metabolites_contains_mono table mets rxns x hres] at h
    exact Bool.noConfusion h

theorem remove_metabolites_removal_absent :
    ∀ (table : List RemovalRow) (mets : Dict PyStr Metabolite) (rxns : Dict PyStr Reaction),
      ∀ row ∈ table,
        dictContains (remove_metabolites table mets rxns).1 row.removal_identifier = false := by
  intro table
  induction table with
  | nil => intro mets rxns row hrow; exact absurd hrow (by simp)
  | cons row0 rest ih =>
    intro mets rxns row hrow
    rw [remove_metabolites_cons]
    rcases List.mem_cons.mp hrow with rfl | hmem
    · apply remove_metabolites_absent
      rw [remove_metabolites_row_fst]
      by_cases hc : dictContains mets row.removal_identifier = true
      · rw [if_pos hc]
        simp [dictContains, dictGet?_dictDel]
      · rw [if_neg hc]
        rcases hb : dictContains mets row.removal_identifier with _ | _
        · rfl
        · exact absurd hb hc
    · exact ih _ _ row hmem

theorem remove_metabolites_integrity :
    ∀ (table : List RemovalRow) (mets : Dict PyStr Metabolite) (rxns : Dict PyStr Reaction),
      (∀ k r, dictGet? rxns k = some r → ∀ p ∈ r.participants,
        dictContains mets p.metabolite = true) →
      (∀ row ∈ table, dictContains (remove_metabolites table mets rxns).1
        row.replacement_identifier = true) →
      ∀ k r, dictGet? (remove_metabolites table mets rxns).2 k = some r →
        ∀ p ∈ r.participants,
          dictContains (remove_metabolites table mets rxns).1 p.metabolite = true := by
  intro table
  induction table with
  | nil =>
    intro mets rxns h1 _ k r hk p hp
    exact h1 k r hk p hp
  | cons row rest ih =>
    intro mets rxns h1 h2 k r hk p hp
    rw [remove_metabolites_cons] at hk ⊢
    refine ih _ _ ?_ ?_ k r hk p hp
    · -- integrity of the state after one row
      intro k1 r1 hk1 p1 hp1
      rw [remove_metabolites_row_snd, dictGet?_mapVal] at hk1
      cases hk0 : dictGet? rxns k1 with
      | none => rw [hk0] at hk1; exact Option.noConfusion hk1
      | some r0 =>
        rw [hk0] at hk1
        simp only [Option.map_some', Option.some.injEq] at hk1
        subst hk1
        simp only [rewriteReaction] at hp1
        obtain ⟨p0, hp0, hp0e⟩ := List.mem_map.mp hp1
        by_cases hpm : p0.metabolite = row.removal_identifier
        · rw [show rewriteParticipant row p0 =
            { p0 with metabolite := row.replacement_identifier } from by
              simp [rewriteParticipant, hpm]] at hp0e
          subst hp0e
          simp only
          have hrepl := h2 row (by simp)
          rw [remove_metabolites_cons] at hrepl
          exact remove_metabolites_contains_mono rest _ _ _ hrepl
        · rw [show rewriteParticipant row p0 = p0 from by
            simp [rewriteParticipant, hpm]] at hp0e
          subst hp0e
          exact contains_step_of_ne mets row p0.metabolite (h1 k1 r0 hk0 p0 hp0) hpm
    · intro row' hrow'
      have := h2 row' (by simp [hrow'])
      rw [remove_metabolites_cons] at this
      exact this

/-- Claim C1 counterexample: removing metabolite `A` with the absent
replacement `B` silently leaves the reaction's participant referencing
`B`, which is not in the resulting metabolite set — the function returns
normally (its type has no error channel, and no `DanglingReferenceError`
exists anywhere in the repository). -/
theorem claim_C1_counterexample :
    (remove_metabolites [⟨"A".toList, "B".toList⟩]
        [("A".toList, plainMetabolite "A".toList)] sampleReactions).2 =
      [("r".toList, plainReaction "r".toList
        [{ metabolite := "B".toList, compartment := "c".toList, coefficient := 1,
           role := "reactant".toList }])] ∧
    dictContains (remove_metabolites [⟨"A".toList, "B".toList⟩]
        [("A".toList, plainMetabolite "A".toList)] sampleReactions).1 "B".toList = false :=
  ⟨by decide, by decide⟩

/-- Claim C1 (amended): after a `remove_metabolites` batch, every removed
identifier is absent from the resulting metabolite map, and — provided
every replacement identifier of the table is present in the resulting
metabolite map and the input satisfied referential integrity — every
participant's metabolite id in every reaction of the result exists in the
resulting metabolite map.  When a replacement identifier is missing the
dangling reference is left silently in the result: the function has no
error channel and the repository defines no `DanglingReferenceError`. -/
theorem claim_C1 (table : List RemovalRow) (mets : Dict PyStr Metabolite)
    (rxns : Dict PyStr Reaction)
    (h1 : ∀ k r, dictGet? rxns k = some r → ∀ p ∈ r.participants,
      dictContains mets p.metabolite = true)
    (h2 : ∀ row ∈ table, dictContains (remove_metabolites table mets rxns).1
      row.replacement_identifier = true) :
    (∀ row ∈ table, dictContains (remove_metabolites table mets rxns).1
      row.removal_identifier = false) ∧
    (∀ k r, dictGet? (remove_metabolites table mets rxns).2 k = some r →
      ∀ p ∈ r.participants,
        dictContains (remove_metabolites table mets rxns).1 p.metabolite = true) :=
  ⟨remove_metabolites_removal_absent table mets rxns,
   remove_metabolites_integrity table mets rxns h1 h2⟩

/-- Claim C1 witness: the amended theorem applied to the removal of `A`
replaced by the present metabolite `B`. -/
theorem claim_C1_witness :
    (∀ k r, dictGet? sampleReactions k = some r → ∀ p ∈ r.participants,
      dictContains sampleMetabolites p.metabolite = true) ∧
    (∀ row ∈ [(⟨"A".toList, "B".toList⟩ : RemovalRow)],
      dictContains (remove_metabolites [⟨"A".toList, "B".toList⟩] sampleMetabolites
        sampleReactions).1 row.replacement_identifier = true) ∧
    dictContains (remove_metabolites [⟨"A".toList, "B".toList⟩] sampleMetabolites
      sampleReactions).1 "A".toList = false := by
  have h1 : ∀ k r, dictGet? sampleReactions k = some r → ∀ p ∈ r.participants,
      dictContains sampleMetabolites p.metabolite = true := by
    intro k r hk p hp
    by_cases hkey : "r".toList = k
    · have hr : r = plainReaction "r".toList [sampleParticipant] := by
        simp only [sampleReactions, dictGet?, if_pos hkey, Option.some.injEq] at hk
        exact hk.symm
      subst hr
      have hp' : p = sampleParticipant := by
        simpa [plainReaction] using hp
      subst hp'
      decide
    · simp only [sampleReactions, dictGet?, if_neg hkey] at hk
      exact Option.noConfusion hk
  refine ⟨h1, by decide, ?_⟩
  exact (claim_C1 [⟨"A".toList, "B".toList⟩] sampleMetabolites sampleReactions h1
    (by decide)).1 ⟨"A".toList, "B".toList⟩ (by decide)

/-! Claim C9: no transformation stage mutates its input.  Over the
object-store embedding, each of `removeMetabolitesStore`,
`removeReactionsStore`, and `copyInterpretModelContent` first deep-copies
the structure it is about to edit and then writes only to the freshly
allocated copies, so every cell that existed before the call (every
address below the input store's `fresh` bound: the input dictionaries,
every participant record, every XML element) still holds exactly its old
value afterwards, and the returned structures live at fresh addresses. -/

theorem readCell_writeCell (h : Heap) (a b : Nat) (c : Cell) :
    readCell (writeCell h a c) b = if b = a then some c else readCell h b := by
  simp [readCell, writeCell, dictGet?_dictSet]

theorem readCell_alloc (h : Heap) (c : Cell) (b : Nat) :
    readCell (allocCell h c).2 b = if b = h.fresh then some c else readCell h b := by
  simp [readCell, allocCell, dictGet?_dictSet]

theorem heapExtends_refl (h : Heap) : heapExtends h h := ⟨le_refl _, fun _ _ => rfl⟩

theorem heapExtends_trans {h0 h1 h2 : Heap} (h01 : heapExtends h0 h1)
    (h12 : heapExtends h1 h2) : heapExtends h0 h2 :=
  ⟨le_trans h01.1 h12.1, fun a ha => (h12.2 a (lt_of_lt_of_le ha h01.1)).trans (h01.2 a ha)⟩

theorem heapExtends_alloc (h : Heap) (c : Cell) : heapExtends h (allocCell h c).2 := by
  refine ⟨Nat.le_succ h.fresh, ?_⟩
  intro a ha
  rw [readCell_alloc]
  exact if_neg (Nat.ne_of_lt ha)

/-- The deep copy of a participant list touches no existing cell and
returns only fresh addresses. -/
theorem copyParticipantCells_spec (pas : List Nat) :
    ∀ (h : Heap),
      heapExtends h (copyParticipantCells pas h).2 ∧
      ∀ x ∈ (copyParticipantCells pas h).1,
        h.fresh ≤ x ∧ x < (copyParticipantCells pas h).2.fresh := by
  induction pas with
  | nil =>
    intro h
    exact ⟨heapExtends_refl h, fun x hx => absurd hx (by simp [copyParticipantCells])⟩
  | cons pa rest ih =>
    intro h
    set c : Cell := (readCell h pa).getD
      (.part { metabolite := [], compartment := [], coefficient := 0, role := [] }) with hcdef
    have hres : copyParticipantCells (pa :: rest) h =
        ((allocCell h c).1 :: (copyParticipantCells rest (allocCell h c).2).1,
         (copyParticipantCells rest (allocCell h c).2).2) := rfl
    obtain ⟨he2, hx2⟩ := ih (allocCell h c).2
    constructor
    · simpa only [hres] using heapExtends_trans (heapExtends_alloc h c) he2
    · intro x hx
      simp only [hres, List.mem_cons] at hx
      simp only [hres]
      rcases hx with rfl | hx
      · refine ⟨Nat.le_refl h.fresh, ?_⟩
        exact lt_of_lt_of_le (Nat.lt_succ_self h.fresh) he2.1
      · obtain ⟨ha, hb⟩ := hx2 x hx
        exact ⟨le_trans (Nat.le_succ h.fresh) ha, hb⟩

/-- The deep copy of a reaction dictionary touches no existing cell and
all its participant addresses are fresh. -/
theorem copyReactionDict_spec (dr : Dict PyStr HeapReaction) :
    ∀ (h : Heap),
      heapExtends h (copyReactionDict dr h).2 ∧
      ∀ kv ∈ (copyReactionDict dr h).1, ∀ pa ∈ kv.2.participants,
        h.fresh ≤ pa ∧ pa < (copyReactionDict dr h).2.fresh := by
  induction dr with
  | nil =>
    intro h
    exact ⟨heapExtends_refl h, fun kv hkv => absurd hkv (by simp [copyReactionDict])⟩
  | cons p rest ih =>
    obtain ⟨k, r⟩ := p
    intro h
    have hres : copyReactionDict ((k, r) :: rest) h =
        ((k, { r with participants := (copyParticipantCells r.participants h).1 }) ::
          (copyReactionDict rest (copyParticipantCells r.participants h).2).1,
         (copyReactionDict rest (copyParticipantCells r.participants h).2).2) := rfl
    obtain ⟨hp1, hp2⟩ := copyParticipantCells_spec r.participants h
    obtain ⟨hr1, hr2⟩ := ih (copyParticipantCells r.participants h).2
    constructor
    · simpa only [hres] using heapExtends_trans hp1 hr1
    · intro kv hkv pa hpa
      simp only [hres, List.mem_cons] at hkv
      simp only [hres]
      rcases hkv with rfl | hkv
      · have hpa2 : pa ∈ (copyParticipantCells r.participants h).1 := hpa
        obtain ⟨ha, hb⟩ := hp2 pa hpa2
        exact ⟨ha, lt_of_lt_of_le hb hr1.1⟩
      · obtain ⟨ha, hb⟩ := hr2 kv hkv pa hpa
        exact ⟨le_trans hp1.1 ha, hb⟩

/-- The in-place participant rewrite only writes the participant's own
address. -/
theorem rewriteParticipantCell_frame (row : RemovalRow) (h : Heap) (pa a : Nat)
    (hne : a ≠ pa) :
    readCell (rewriteParticipantCell row h pa) a = readCell h a := by
  cases hcell : readCell h pa with
  | none => simp [rewriteParticipantCell, hcell]
  | some c =>
    cases c with
    | part p =>
      by_cases hm : p.metabolite = row.removal_identifier
      · simp only [rewriteParticipantCell, hcell, if_pos hm]
        rw [readCell_writeCell, if_neg hne]
      · simp only [rewriteParticipantCell, hcell, if_neg hm]
    | mdict d => simp [rewriteParticipantCell, hcell]
    | rdict d => simp [rewriteParticipantCell, hcell]
    | elt att ch => simp [rewriteParticipantCell, hcell]

theorem participantFold_frame (row : RemovalRow) (pas : List Nat) :
    ∀ (hc : Heap) (a : Nat), (∀ pa ∈ pas, a ≠ pa) →
      readCell (pas.foldl (fun hcc pa => rewriteParticipantCell row hcc pa) hc) a =
        readCell hc a := by
  induction pas with
  | nil => intro hc a _; rfl
  | cons pa rest ih =>
    intro hc a hall
    simp only [List.foldl_cons]
    rw [ih _ a fun q hq => hall q (List.mem_cons_of_mem _ hq)]
    exact rewriteParticipantCell_frame row hc pa a (hall pa (List.mem_cons_self _ _))

theorem reactionFold_frame (row : RemovalRow) (drl : Dict PyStr HeapReaction) :
    ∀ (hc : Heap) (a : Nat),
      (∀ kv ∈ drl, ∀ pa ∈ kv.2.participants, a ≠ pa) →
      readCell (drl.foldl (fun hcf kv => kv.2.participants.foldl
        (fun hcc pa => rewriteParticipantCell row hcc pa) hcf) hc) a = readCell hc a := by
  induction drl with
  | nil => intro hc a _; rfl
  | cons kv rest ih =>
    intro hc a hall
    simp only [List.foldl_cons]
    rw [ih _ a fun q hq => hall q (List.mem_cons_of_mem _ hq)]
    exact participantFold_frame row kv.2.participants hc a (hall kv (List.mem_cons_self _ _))

/-- One removal row preserves every protected cell and the copied
reaction-dictionary cell itself (the row writes only the fresh metabolite
dictionary and the fresh participant copies). -/
theorem removeMetabolitesStoreRow_inv (dmA2 drA2 nProt : Nat)
    (dcells : Dict PyStr HeapReaction)
    (hdm : nProt ≤ dmA2) (hdr : dmA2 ≠ drA2)
    (hpa : ∀ kv ∈ dcells, ∀ pa ∈ kv.2.participants, nProt ≤ pa ∧ pa ≠ drA2)
    (hc : Heap) (row : RemovalRow)
    (hI2 : readCell hc drA2 = some (.rdict dcells)) :
    (∀ a, a < nProt →
      readCell (removeMetabolitesStoreRow dmA2 drA2 hc row) a = readCell hc a) ∧
    readCell (removeMetabolitesStoreRow dmA2 drA2 hc row) drA2 = some (.rdict dcells) := by
  have hframe : ∀ (h1 : Heap), readCell h1 drA2 = some (.rdict dcells) →
      (∀ a, a < nProt →
        readCell ((readRDict h1 drA2).foldl
          (fun hcf kv => kv.2.participants.foldl
            (fun hcc pa => rewriteParticipantCell row hcc pa) hcf) h1) a = readCell h1 a) ∧
      readCell ((readRDict h1 drA2).foldl
          (fun hcf kv => kv.2.participants.foldl
            (fun hcc pa => rewriteParticipantCell row hcc pa) hcf) h1) drA2 =
        some (.rdict dcells) := by
    intro h1 hh1
    have hrd2 : readRDict h1 drA2 = dcells := by
      simp [readRDict, hh1]
    rw [hrd2]
    constructor
    · intro a ha
      exact reactionFold_frame row dcells h1 a
        (fun kv hkv pa2 hpa2 => Nat.ne_of_lt (lt_of_lt_of_le ha (hpa kv hkv pa2 hpa2).1))
    · rw [reactionFold_frame row dcells h1 drA2
        (fun kv hkv pa2 hpa2 => Ne.symm (hpa kv hkv pa2 hpa2).2)]
      exact hh1
  simp only [removeMetabolitesStoreRow]
  by_cases hcont : dictContains (readMDict hc dmA2) row.removal_identifier = true
  · rw [if_pos hcont]
    have hw : readCell (writeCell hc dmA2
        (.mdict (dictDel (readMDict hc dmA2) row.removal_identifier))) drA2 =
        some (.rdict dcells) := by
      rw [readCell_writeCell, if_neg (Ne.symm hdr)]
      exact hI2
    obtain ⟨hf, hd⟩ := hframe _ hw
    refine ⟨fun a ha => ?_, hd⟩
    rw [hf a ha, readCell_writeCell, if_neg (Nat.ne_of_lt (lt_of_lt_of_le ha hdm))]
  · rw [if_neg hcont]
    exact hframe hc hI2

/-- The whole removal loop preserves every protected cell. -/
theorem removalFold_inv (dmA2 drA2 nProt : Nat) (dcells : Dict PyStr HeapReaction)
    (hdm : nProt ≤ dmA2) (hdr : dmA2 ≠ drA2)
    (hpa : ∀ kv ∈ dcells, ∀ pa ∈ kv.2.participants, nProt ≤ pa ∧ pa ≠ drA2)
    (table : List RemovalRow) :
    ∀ (hc : Heap), readCell hc drA2 = some (.rdict dcells) →
      (∀ a, a < nProt →
        readCell (table.foldl (removeMetabolitesStoreRow dmA2 drA2) hc) a = readCell hc a) ∧
      readCell (table.foldl (removeMetabolitesStoreRow dmA2 drA2) hc) drA2 =
        some (.rdict dcells) := by
  induction table with
  | nil => intro hc hI2; exact ⟨fun a _ => rfl, hI2⟩
  | cons row rest ih =>
    intro hc hI2
    rw [List.foldl_cons]
    obtain ⟨hf1, hd1⟩ :=
      removeMetabolitesStoreRow_inv dmA2 drA2 nProt dcells hdm hdr hpa hc row hI2
    obtain ⟨hf2, hd2⟩ := ih (removeMetabolitesStoreRow dmA2 drA2 hc row) hd1
    exact ⟨fun a ha => (hf2 a ha).trans (hf1 a ha), hd2⟩

/-- `remove_metabolites` over the store: every pre-existing cell is
untouched and both returned dictionary addresses are fresh. -/
theorem removeMetabolitesStore_frame (table : List RemovalRow) (dmA drA : Nat) (h : Heap) :
    (∀ a, a < h.fresh →
      readCell (removeMetabolitesStore table dmA drA h).2 a = readCell h a) ∧
    h.fresh ≤ (removeMetabolitesStore table dmA drA h).1.1 ∧
    h.fresh < (removeMetabolitesStore table dmA drA h).1.2 := by
  set hm := allocCell h (.mdict (readMDict h dmA)) with hhm
  set cp := copyReactionDict (readRDict hm.2 drA) hm.2 with hhcp
  set rd := allocCell cp.2 (.rdict cp.1) with hhrd
  have hres2 : (removeMetabolitesStore table dmA drA h).2 =
      table.foldl (removeMetabolitesStoreRow hm.1 rd.1) rd.2 := rfl
  have hres11 : (removeMetabolitesStore table dmA drA h).1.1 = hm.1 := rfl
  have hres12 : (removeMetabolitesStore table dmA drA h).1.2 = rd.1 := rfl
  have hm1 : hm.1 = h.fresh := rfl
  have hmf : hm.2.fresh = h.fresh + 1 := rfl
  have hrd1 : rd.1 = cp.2.fresh := rfl
  obtain ⟨hcpe, hcpa⟩ := copyReactionDict_spec (readRDict hm.2 drA) hm.2
  rw [← hhcp] at hcpe hcpa
  have hltf : h.fresh < cp.2.fresh := by
    have hle := hcpe.1
    rw [hmf] at hle
    exact hle
  have hmde : heapExtends h hm.2 := by rw [hhm]; exact heapExtends_alloc _ _
  have hrde : heapExtends h rd.2 := by
    refine heapExtends_trans (heapExtends_trans hmde hcpe) ?_
    rw [hhrd]
    exact heapExtends_alloc _ _
  have hI2 : readCell rd.2 rd.1 = some (.rdict cp.1) := by
    rw [hhrd, readCell_alloc,
      if_pos (show (allocCell cp.2 (Cell.rdict cp.1)).1 = cp.2.fresh from rfl)]
  have hpa : ∀ kv ∈ cp.1, ∀ pa2 ∈ kv.2.participants, h.fresh ≤ pa2 ∧ pa2 ≠ rd.1 := by
    intro kv hkv pa2 hpa2
    obtain ⟨ha, hb⟩ := hcpa kv hkv pa2 hpa2
    constructor
    · have hs : h.fresh + 1 ≤ pa2 := by rw [← hmf]; exact ha
      exact le_trans (Nat.le_succ h.fresh) hs
    · rw [hrd1]
      exact Nat.ne_of_lt hb
  have hdm : h.fresh ≤ hm.1 := le_of_eq hm1.symm
  have hdr : hm.1 ≠ rd.1 := by
    rw [hm1, hrd1]
    exact Nat.ne_of_lt hltf
  obtain ⟨hf, _⟩ := removalFold_inv hm.1 rd.1 h.fresh cp.1 hdm hdr hpa table rd.2 hI2
  rw [hres2, hres11, hres12]
  refine ⟨fun a ha => ?_, hdm, ?_⟩
  · rw [hf a ha]
    exact hrde.2 a ha
  · rw [hrd1]
    exact hltf

/-- The reaction-deletion loop writes only the fresh dictionary cell. -/
theorem reactionRemovalFold_frame (drA2 : Nat) (table : List ReactionRemovalRow) :
    ∀ (hc : Heap) (a : Nat), a ≠ drA2 →
      readCell (table.foldl (fun hcf row =>
        if dictContains (readRDict hcf drA2) row.identifier then
          writeCell hcf drA2 (.rdict (dictDel (readRDict hcf drA2) row.identifier))
        else hcf) hc) a = readCell hc a := by
  induction table with
  | nil => intro hc a _; rfl
  | cons row rest ih =>
    intro hc a hne
    simp only [List.foldl_cons]
    rw [ih _ a hne]
    by_cases hcont : dictContains (readRDict hc drA2) row.identifier = true
    · rw [if_pos hcont, readCell_writeCell, if_neg hne]
    · rw [if_neg hcont]

/-- `remove_reactions` over the store: every pre-existing cell is
untouched and the returned dictionary address is fresh. -/
theorem removeReactionsStore_frame (table : List ReactionRemovalRow) (drA : Nat) (h : Heap) :
    (∀ a, a < h.fresh →
      readCell (removeReactionsStore table drA h).2 a = readCell h a) ∧
    h.fresh ≤ (removeReactionsStore table drA h).1 := by
  set cp := copyReactionDict (readRDict h drA) h with hhcp
  set rd := allocCell cp.2 (.rdict cp.1) with hhrd
  have hres1 : (removeReactionsStore table drA h).1 = rd.1 := rfl
  have hres2 : (removeReactionsStore table drA h).2 =
      table.foldl (fun hcf row =>
        if dictContains (readRDict hcf rd.1) row.identifier then
          writeCell hcf rd.1 (.rdict (dictDel (readRDict hcf rd.1) row.identifier))
        else hcf) rd.2 := rfl
  have hrd1 : rd.1 = cp.2.fresh := rfl
  obtain ⟨hcpe, _⟩ := copyReactionDict_spec (readRDict h drA) h
  rw [← hhcp] at hcpe
  have hrde : heapExtends h rd.2 := by
    refine heapExtends_trans hcpe ?_
    rw [hhrd]
    exact heapExtends_alloc _ _
  rw [hres1, hres2]
  refine ⟨fun a ha => ?_, ?_⟩
  · rw [reactionRemovalFold_frame rd.1 table rd.2 a
      (by rw [hrd1]; exact Nat.ne_of_lt (lt_of_lt_of_le ha hcpe.1))]
    exact hrde.2 a ha
  · rw [hrd1]
    exact hcpe.1

/-- The deep copy of an element forest touches no existing cell. -/
theorem copyForest_extends (ts : List XTree) (h : Heap) :
    heapExtends h (copyForest ts h).2 := by
  induction ts, h using copyForest.induct with
  | case1 h =>
    simp only [copyForest]
    exact heapExtends_refl h
  | case2 attrib children rest h cas a2 ih1 ih2 =>
    simp only [copyForest]
    exact heapExtends_trans ih1 (heapExtends_trans (heapExtends_alloc _ _) ih2)

/-- `copy_interpret_content_recon2m2` over the store: the input tree's
cells (and every other pre-existing cell) are untouched, and the copied
root lives at a fresh address. -/
theorem copyInterpretModelContent_frame (t : XTree) (h : Heap) :
    (∀ a, a < h.fresh → readCell (copyInterpretModelContent t h).2 a = readCell h a) ∧
    h.fresh ≤ (copyTree t h).1 := by
  have hres : (copyInterpretModelContent t h).2 = (copyTree t h).2 := rfl
  cases t with
  | node attrib children =>
    have he := copyForest_extends children h
    have h2 : (copyTree (XTree.node attrib children) h).2 =
        (allocCell (copyForest children h).2
          (.elt attrib (copyForest children h).1)).2 := rfl
    have h1 : (copyTree (XTree.node attrib children) h).1 =
        (copyForest children h).2.fresh := rfl
    constructor
    · intro a ha
      rw [hres, h2, readCell_alloc, if_neg (Nat.ne_of_lt (lt_of_lt_of_le ha he.1))]
      exact he.2 a ha
    · rw [h1]
      exact he.1

/-- Claim C9: no transformation stage mutates its input.  Over the
object-store embedding of the refinement and curation operations, for
every input store: (i) `removeMetabolitesStore` (= `remove_metabolites`)
leaves every pre-existing cell — the input metabolite and reaction
dictionaries and every participant record, i.e. every address below the
input store's allocation bound — holding exactly its old value, and
returns two dictionary addresses that are fresh (not below the bound, so
aliasing no input object); (ii) `removeReactionsStore`
(= `remove_reactions`) likewise preserves every pre-existing cell and
returns a fresh dictionary address; (iii) `copyInterpretModelContent`
(= `copy_interpret_content_recon2m2`) preserves every pre-existing cell —
in particular every element of the input tree — and the copied root is at
a fresh address. -/
theorem claim_C9 :
    (∀ (table : List RemovalRow) (dmA drA : Nat) (h : Heap) (a : Nat), a < h.fresh →
      readCell (removeMetabolitesStore table dmA drA h).2 a = readCell h a ∧
      h.fresh ≤ (removeMetabolitesStore table dmA drA h).1.1 ∧
      h.fresh < (removeMetabolitesStore table dmA drA h).1.2) ∧
    (∀ (table : List ReactionRemovalRow) (drA : Nat) (h : Heap) (a : Nat), a < h.fresh →
      readCell (removeReactionsStore table drA h).2 a = readCell h a ∧
      h.fresh ≤ (removeReactionsStore table drA h).1) ∧
    (∀ (t : XTree) (h : Heap) (a : Nat), a < h.fresh →
      readCell (copyInterpretModelContent t h).2 a = readCell h a ∧
      h.fresh ≤ (copyTree t h).1) := by
  refine ⟨fun table dmA drA h a ha => ?_, fun table drA h a ha => ?_, fun t h a ha => ?_⟩
  · obtain ⟨hf, hb1, hb2⟩ := removeMetabolitesStore_frame table dmA drA h
    exact ⟨hf a ha, hb1, hb2⟩
  · obtain ⟨hf, hb⟩ := removeReactionsStore_frame table drA h
    exact ⟨hf a ha, hb⟩
  · obtain ⟨hf, hb⟩ := copyInterpretModelContent_frame t h
    exact ⟨hf a ha, hb⟩

/-- Concrete run of the frame theorem: a store holding one metabolite
dictionary at address 0; each of the three operations leaves that cell
unchanged. -/
theorem claim_C9_witness :
    (0 : Nat) < heap0.fresh ∧
    readCell (removeMetabolitesStore [⟨"A".toList, "B".toList⟩] 0 0 heap0).2 0 =
      readCell heap0 0 ∧
    readCell (removeReactionsStore [⟨"R1".toList⟩] 0 heap0).2 0 = readCell heap0 0 ∧
    readCell (copyInterpretModelContent (XTree.node [] []) heap0).2 0 = readCell heap0 0 :=
  ⟨by decide,
   (claim_C9.1 [⟨"A".toList, "B".toList⟩] 0 0 heap0 0 (by decide)).1,
   (claim_C9.2.1 [⟨"R1".toList⟩] 0 heap0 0 (by decide)).1,
   (claim_C9.2.2 (XTree.node [] []) heap0 0 (by decide)).1⟩


end Dymetabonet
